import Mathlib

/-!
A verification development for a Texas Hold'em hand-lifecycle engine
(`poker/engine.py`, `poker/evaluator.py`, `poker/models.py`).

The Python sources are shallowly embedded below: Python ints become `Int`
(or `Nat` for indices), Python lists become `List`, the `Counter`-based
rank/suit tallies become first-occurrence dedup lists with `List.count`,
and the mutable betting-round loop becomes a fuel-indexed recursion over an
explicit state record.  Error paths (indexing past the end of a list) are
totalized with `List.getD` guards that leave the state unchanged.
-/

namespace Poker

/-! ### Cards (models.py: Suit, Rank, Card)

Ranks are embedded as their numeric `value` (2..14); the Python code only
ever compares ranks through `.value`, so the enum and its value are
interchangeable. -/

inductive Suit where
  | hearts
  | diamonds
  | clubs
  | spades
deriving DecidableEq

structure Card where
  rank : Nat
  suit : Suit
deriving DecidableEq

/-! ### Evaluator helpers

`dedupFirst l` lists the distinct elements of `l` in first-occurrence
order: this is exactly the iteration order of a Python `Counter` built from
`l`, which the evaluator relies on via `next(...)` expressions. -/

def dedupFirst {α} [DecidableEq α] (l : List α) : List α :=
  l.foldl (fun acc a => if a ∈ acc then acc else acc ++ [a]) []

/-- `sorted(l)` -/
def sortAsc (l : List Nat) : List Nat :=
  List.insertionSort (fun a b => a ≤ b) l

/-- `sorted(l, reverse=True)` -/
def sortDesc (l : List Nat) : List Nat :=
  List.insertionSort (fun a b => b ≤ a) l

/-- `max(l)` on a nonempty Python list of values (totalized with 0). -/
def listMax (l : List Nat) : Nat :=
  l.foldl max 0

/-! ### HandEvaluator (evaluator.py) -/

/-- A hand score `(category, kicker list)`, compared as Python compares
tuples and lists (lexicographically). -/
abbrev HandScore := Nat × List Nat

/-- Python `<` on `List int`. -/
def listLtB : List Nat → List Nat → Bool
  | [], [] => false
  | [], _ :: _ => true
  | _ :: _, [] => false
  | a :: l, b :: m => if a < b then true else if b < a then false else listLtB l m

/-- Python `<` on score tuples. -/
def scoreLtB (x y : HandScore) : Bool :=
  if x.1 < y.1 then true else if y.1 < x.1 then false else listLtB x.2 y.2

/-- The straight-detection loop of `_get_best_hand`: scan windows of 5
consecutive entries of the sorted unique values, remembering the LAST
match (the Python loop has no `break`).  Initial accumulator comes from
the wheel (A-5) special case. -/
def straightScanLast (u : List Nat) (init : Bool × Option Nat) : Bool × Option Nat :=
  (List.range (u.length - 4)).foldl
    (fun acc i =>
      if (u.drop i).take 5 = List.range' (u.getD i 0) 5 then
        (true, some (u.getD (i + 4) 0))
      else acc)
    init

/-- The straight-flush loop: same windows over the sorted flush-suit
values, but stopping at the FIRST match (the Python loop `break`s). -/
def straightScanFirst (u : List Nat) : Option Nat :=
  (List.range (u.length - 4)).foldl
    (fun acc i =>
      if acc.isSome then acc
      else if (u.drop i).take 5 = List.range' (u.getD i 0) 5 then
        some (u.getD (i + 4) 0)
      else acc)
    none

/-- `HandEvaluator._get_best_hand`, translated clause by clause. -/
def getBestHand (cards : List Card) : HandScore :=
  let suits := cards.map Card.suit
  let flushSuit : Option Suit := (dedupFirst suits).find? (fun s => 5 ≤ suits.count s)
  let ranks := cards.map Card.rank
  let rankValues := ranks
  let uniqueValues := sortAsc (dedupFirst rankValues)
  -- wheel special case, then the normal-straight loop (last match wins)
  let wheel : Bool :=
    14 ∈ ranks ∧ 2 ∈ ranks ∧ 3 ∈ ranks ∧ 4 ∈ ranks ∧ 5 ∈ ranks
  let s0 : Bool × Option Nat :=
    straightScanLast uniqueValues (if wheel then (true, some 5) else (false, none))
  let straight := s0.1
  -- straight-flush section (only entered when a flush suit and a straight
  -- exist); it may overwrite `straight_high`
  let sf : Bool × Option Nat :=
    match flushSuit with
    | some fs =>
      if straight then
        let flushValues := sortAsc ((cards.filter (fun c => c.suit = fs)).map Card.rank)
        let fw : Bool :=
          14 ∈ flushValues ∧ 2 ∈ flushValues ∧ 3 ∈ flushValues ∧
            4 ∈ flushValues ∧ 5 ∈ flushValues
        let first := straightScanFirst flushValues
        if fw then (true, some 5)
        else
          match first with
          | some h => (true, some h)
          | none => (false, s0.2)
      else (false, s0.2)
    | none => (false, s0.2)
  let straightFlush := sf.1
  let straightHigh := sf.2
  let royalFlush := straightFlush ∧ straightHigh = some 14
  let fourKind := (dedupFirst ranks).any (fun r => ranks.count r = 4)
  let threeKind := (dedupFirst ranks).any (fun r => ranks.count r = 3)
  let pairs := (dedupFirst ranks).filter (fun r => ranks.count r = 2)
  let fullHouse := threeKind ∧ pairs ≠ []
  let twoPair := 2 ≤ pairs.length
  let onePair := pairs.length = 1
  if royalFlush then (9, [14])
  else if straightFlush then (8, [straightHigh.getD 0])
  else if fourKind then
    let quads := ((dedupFirst ranks).find? (fun r => ranks.count r = 4)).getD 0
    let kicker := listMax (ranks.filter (fun r => r ≠ quads))
    (7, [quads, kicker])
  else if fullHouse then
    let trips := ((dedupFirst ranks).find? (fun r => ranks.count r = 3)).getD 0
    let pairRank := ((dedupFirst ranks).find? (fun r => ranks.count r = 2)).getD 0
    (6, [trips, pairRank])
  else if flushSuit.isSome then
    let flushValues := (cards.filter (fun c => c.suit = flushSuit.getD Suit.hearts)).map Card.rank
    (5, (sortDesc flushValues).take 5)
  else if straight then (4, [straightHigh.getD 0])
  else if threeKind then
    let trips := ((dedupFirst ranks).find? (fun r => ranks.count r = 3)).getD 0
    let kickers := (sortDesc (ranks.filter (fun r => r ≠ trips))).take 2
    (3, trips :: kickers)
  else if twoPair then
    let topPairs := (sortDesc pairs).take 2
    let kicker := listMax (ranks.filter (fun r => r ∉ topPairs))
    (2, topPairs ++ [kicker])
  else if onePair then
    let pairRank := pairs.getD 0 0
    let kickers := (sortDesc (ranks.filter (fun r => r ≠ pairRank))).take 3
    (1, pairRank :: kickers)
  else
    (0, (sortDesc rankValues).take 5)

/-- `HandEvaluator.evaluate`. -/
def evaluateHand (hand communityCards : List Card) : HandScore :=
  getBestHand (hand ++ communityCards)

/-- The seven cards 3♠ 3♥ 3♦ 5♠ 5♥ 5♦ K♣: two triples and no rank of
count exactly two. -/
def twoTriplesHand : List Card :=
  [⟨3, .spades⟩, ⟨3, .hearts⟩, ⟨3, .diamonds⟩,
   ⟨5, .spades⟩, ⟨5, .hearts⟩, ⟨5, .diamonds⟩, ⟨13, .clubs⟩]

/-- The seven cards 5♠ 5♥ 5♦ 3♠ 3♥ K♣ 2♣: the same best five cards
(5♠ 5♥ 5♦ 3♠ 3♥) as `twoTriplesHand`, reached with a genuine pair. -/
def tripleAndPairHand : List Card :=
  [⟨5, .spades⟩, ⟨5, .hearts⟩, ⟨5, .diamonds⟩,
   ⟨3, .spades⟩, ⟨3, .hearts⟩, ⟨13, .clubs⟩, ⟨2, .clubs⟩]

/-- 5♠ 5♥ 5♦ 3♠ 3♥ as a subsequence of `twoTriplesHand` (in its card
order) and of `tripleAndPairHand`. -/
def bestFiveOfTwoTriples : List Card :=
  [⟨3, .spades⟩, ⟨3, .hearts⟩, ⟨5, .spades⟩, ⟨5, .hearts⟩, ⟨5, .diamonds⟩]

def bestFiveOfTripleAndPair : List Card :=
  [⟨5, .spades⟩, ⟨5, .hearts⟩, ⟨5, .diamonds⟩, ⟨3, .spades⟩, ⟨3, .hearts⟩]

/-- C5. The evaluator does NOT implement the claimed full-house rule: on
3♠ 3♥ 3♦ 5♠ 5♥ 5♦ K♣ (at most 7 cards, a triple present, and a second
pair-or-triple present, namely the second triple) `_get_best_hand`
returns three-of-a-kind `(3, [3, 13, 5])` — `pairs` only collects ranks
with count exactly 2, so `full_house` is false, and the `next(...)` pick
takes the first-occurring triple (the threes), not the higher one.  The
claimed result would be the full house `(6, [5, 3])`, which the code does
produce once the fives keep count 3 and the threes drop to count 2. -/
theorem c5_full_house_code_bug :
    getBestHand twoTriplesHand = (3, [3, 13, 5]) ∧
      (getBestHand twoTriplesHand).1 ≠ 6 ∧
      getBestHand tripleAndPairHand = (6, [5, 3]) := by
  decide

/-- C8. Ties break: the two seven-card inputs `twoTriplesHand` and
`tripleAndPairHand` have the same best five cards — the multiset
5♠ 5♥ 5♦ 3♠ 3♥ is a size-5 sub-hand of both, and no size-5 sub-hand of
either scores higher under the evaluator's own order — yet the evaluator
scores the full inputs differently (`(3, [3, 13, 5])` versus
`(6, [5, 3])`), refuting "two inputs whose best 5 cards are identical
produce equal scores". -/
theorem c8_equal_best_five_unequal_scores :
    bestFiveOfTwoTriples ∈ List.sublistsLen 5 twoTriplesHand ∧
      bestFiveOfTripleAndPair ∈ List.sublistsLen 5 tripleAndPairHand ∧
      bestFiveOfTwoTriples.Perm bestFiveOfTripleAndPair ∧
      (∀ x ∈ List.sublistsLen 5 twoTriplesHand,
        scoreLtB (getBestHand bestFiveOfTwoTriples) (getBestHand x) = false) ∧
      (∀ x ∈ List.sublistsLen 5 tripleAndPairHand,
        scoreLtB (getBestHand bestFiveOfTripleAndPair) (getBestHand x) = false) ∧
      getBestHand twoTriplesHand ≠ getBestHand tripleAndPairHand := by
  decide

/-! ### Engine data model (models.py: Agent, Action; engine.py: Game state)

A `Player` carries the per-seat fields the engine reads and writes:
`chips`, `current_bet` (this round's contribution), `folded`, and `hand`
(hole cards).  A `RoundSt` bundles the table state the betting round
manipulates: the seats, the pot, the table's `current_bet`, the cursor
`current_idx`, `last_raiser`, and the `acted`-since-last-raise set. -/

structure Player where
  chips : Int
  current_bet : Int
  folded : Bool
  hand : List Card
deriving DecidableEq

instance : Inhabited Player := ⟨⟨0, 0, false, []⟩⟩

inductive ActionType where
  | big_blind
  | small_blind
  | bet
  | call
  | raise
  | check
  | fold
  | all_in
deriving DecidableEq

structure Action where
  action_type : ActionType
  amount : Int
deriving DecidableEq

structure RoundSt where
  players : List Player
  pot : Int
  current_bet : Int
  current_idx : Nat
  last_raiser : Option Nat
  acted : List Nat
deriving DecidableEq

namespace RoundSt

/-- Seat `i` (out-of-range reads give the default player, mirroring the
fact that the Python code never indexes out of range). -/
def pl (st : RoundSt) (i : Nat) : Player :=
  st.players.getD i default

end RoundSt

/-! ### ActionValidator (engine.py: Game.validate_action)

`infoB` is `info_set.current_bet` and `bb` is `self.big_blind`.  Note the
original code consults `action.amount` — the caller's raw amount — in the
insufficient-chips checks even after `validated_action.amount` has been
bumped; the translation preserves that. -/

def validate_action (bb infoB : Int) (p : Player) (a : Action) : Action :=
  match a.action_type with
  | ActionType.bet =>
    let amt1 := if a.amount < bb then bb else a.amount
    if a.amount > p.chips then ⟨ActionType.all_in, p.chips + p.current_bet⟩
    else ⟨ActionType.bet, amt1⟩
  | ActionType.raise =>
    let minRaise := infoB + bb
    let amt1 := if a.amount < minRaise then minRaise else a.amount
    if a.amount - p.current_bet > p.chips then ⟨ActionType.all_in, p.chips + p.current_bet⟩
    else ⟨ActionType.raise, amt1⟩
  | ActionType.call =>
    let callAmount := infoB - p.current_bet
    if p.chips = 0 then ⟨ActionType.call, 0⟩
    else if callAmount = 0 then ⟨ActionType.check, 0⟩
    else if callAmount > p.chips then ⟨ActionType.all_in, p.chips + p.current_bet⟩
    else ⟨ActionType.call, infoB⟩
  | ActionType.all_in => ⟨ActionType.all_in, p.chips + p.current_bet⟩
  | _ => a

/-! ### Action processing (engine.py: the per-action branches of
Game.betting_round, lines 384-568)

Returns the updated table state together with the action as it was
recorded into the history (the branches rewrite its type and amount).
Any action at an out-of-range index leaves the state unchanged. -/

/-- The shared BET/RAISE processing body after the minimum bump: `amt` is
the (possibly bumped) target total contribution (engine.py lines
467-529). -/
def process_bet_raise (st : RoundSt) (idx : Nat) (p : Player)
    (ty : ActionType) (amt : Int) : RoundSt × Action :=
  let additional := min (amt - p.current_bet) p.chips
  let total := p.current_bet + additional
  if additional ≥ p.chips then
    let newBet := p.current_bet + p.chips
    let st1 := { st with
      players := st.players.set idx { p with chips := 0, current_bet := newBet },
      pot := st.pot + p.chips }
    if newBet > st.current_bet then
      ({ st1 with current_bet := newBet, last_raiser := some idx, acted := [idx] },
        ⟨ActionType.all_in, newBet⟩)
    else
      ({ st1 with acted := st.acted.insert idx }, ⟨ActionType.all_in, newBet⟩)
  else
    ({ st with
        players := st.players.set idx
          { p with chips := p.chips - additional, current_bet := total },
        pot := st.pot + additional,
        current_bet := total,
        last_raiser := some idx,
        acted := [idx] }, ⟨ty, total⟩)

def process_action (bb : Int) (st : RoundSt) (idx : Nat) (a : Action) : RoundSt × Action :=
  if idx < st.players.length then
    let p := st.pl idx
    match a.action_type with
    | ActionType.fold =>
      ({ st with players := st.players.set idx { p with folded := true },
                 acted := st.acted.insert idx }, a)
    | ActionType.check =>
      if st.current_bet > p.current_bet then
        let amt := st.current_bet - p.current_bet
        ({ st with
            players := st.players.set idx
              { p with chips := p.chips - amt, current_bet := p.current_bet + amt },
            pot := st.pot + amt,
            acted := st.acted.insert idx }, ⟨ActionType.call, amt⟩)
      else
        ({ st with acted := st.acted.insert idx }, a)
    | ActionType.call =>
      let minCall := max 0 (st.current_bet - p.current_bet)
      let callAmt := min minCall p.chips
      let recorded : Action :=
        if callAmt = p.chips ∧ callAmt < minCall then ⟨ActionType.all_in, callAmt⟩
        else ⟨ActionType.call, callAmt⟩
      ({ st with
          players := st.players.set idx
            { p with chips := p.chips - callAmt, current_bet := p.current_bet + callAmt },
          pot := st.pot + callAmt,
          acted := st.acted.insert idx }, recorded)
    | ActionType.bet =>
      process_bet_raise st idx p ActionType.bet
        (if a.amount < bb then bb else a.amount)
    | ActionType.raise =>
      process_bet_raise st idx p ActionType.raise
        (if a.amount < st.current_bet + bb then st.current_bet + bb else a.amount)
    | ActionType.all_in =>
      let additional := p.chips
      let newBet := p.current_bet + additional
      let st1 := { st with
        players := st.players.set idx { p with chips := 0, current_bet := newBet },
        pot := st.pot + additional }
      if newBet > st.current_bet then
        ({ st1 with current_bet := newBet, last_raiser := some idx, acted := [idx] },
          ⟨ActionType.all_in, additional⟩)
      else
        ({ st1 with acted := st.acted.insert idx }, ⟨ActionType.all_in, additional⟩)
    | _ => (st, a)
  else (st, a)

/-! ### Theorems C3, C4, C9, C10 (validator and per-action processing) -/

/-- C3. A proposed CALL by a seat with chips `chips > 0` and round
contribution `c ≤ B` (`B` the table's current bet), run through the
validator and then the engine's action processing, is recorded with
amount `min (B - c) chips` — the claimed clamp — and when the seat cannot
cover the full shortfall the recorded action is ALL_IN for exactly the
seat's remaining stack (never a fold and never an error). -/
theorem c3_call_clamped_and_short_call_all_in
    (bb B c chips amt pot : Int) (hc : c ≤ B) (hchips : 0 < chips) :
    let p : Player := ⟨chips, c, false, []⟩
    let st : RoundSt := ⟨[p], pot, B, 0, none, []⟩
    let recorded := (process_action bb st 0 (validate_action bb B p ⟨ActionType.call, amt⟩)).2
    recorded.amount = min (B - c) chips ∧
      (chips < B - c →
        recorded.action_type = ActionType.all_in ∧ recorded.amount = chips) := by
  intro p st recorded
  have hch0 : ¬ chips = 0 := by omega
  by_cases h0 : B - c = 0
  · -- shortfall 0: validator rewrites to CHECK, processing records it as-is
    have hnotgt : ¬ B > c := by omega
    simp only [recorded, st, p, validate_action, process_action, RoundSt.pl,
      hch0, h0, hnotgt, if_true, if_false, List.getD_cons_zero,
      List.length_cons, List.length_nil, ite_true, ite_false, if_neg, if_pos]
    norm_num
    exact ⟨by omega, fun h => absurd h (by omega)⟩
  · by_cases hshort : B - c > chips
    · -- short call: validator converts to ALL_IN, processing records chips
      have hnr : ¬ c + chips > B := by omega
      simp only [recorded, st, p, validate_action, process_action, RoundSt.pl,
        hch0, h0, hshort, hnr, List.getD_cons_zero,
        List.length_cons, List.length_nil]
      norm_num
      omega
    · -- affordable call: recorded amount is the clamped shortfall
      have hcond : ¬ (min (max 0 (B - c)) chips = chips ∧
          min (max 0 (B - c)) chips < max 0 (B - c)) := by omega
      simp only [recorded, st, p, validate_action, process_action, RoundSt.pl,
        hch0, h0, hshort, hcond, List.getD_cons_zero,
        List.length_cons, List.length_nil]
      norm_num
      omega

/-- C3 witness: the spec scenario — 50 chips facing a required call of
100 — is recorded as ALL_IN for 50. -/
theorem c3_call_clamped_witness :
    ((process_action 10 ⟨[⟨50, 0, false, []⟩], 0, 100, 0, none, []⟩ 0
        (validate_action 10 100 ⟨50, 0, false, []⟩ ⟨ActionType.call, 100⟩)).2.amount
      = min (100 - 0) 50 ∧
      ((50 : Int) < 100 - 0 →
        (process_action 10 ⟨[⟨50, 0, false, []⟩], 0, 100, 0, none, []⟩ 0
          (validate_action 10 100 ⟨50, 0, false, []⟩ ⟨ActionType.call, 100⟩)).2.action_type
            = ActionType.all_in ∧
        (process_action 10 ⟨[⟨50, 0, false, []⟩], 0, 100, 0, none, []⟩ 0
          (validate_action 10 100 ⟨50, 0, false, []⟩ ⟨ActionType.call, 100⟩)).2.amount = 50)) :=
  c3_call_clamped_and_short_call_all_in 10 100 0 50 100 0 (by norm_num) (by norm_num)

/-- C4 counterexample: a BET of 60 while the table's current bet is 50
(nonzero) is NOT rewritten to a RAISE — the validator returns it
unchanged as a BET, and the engine records the processed action as a BET
as well. -/
theorem c4_bet_not_rewritten_to_raise :
    validate_action 10 50 ⟨1000, 0, false, []⟩ ⟨ActionType.bet, 60⟩ =
        ⟨ActionType.bet, 60⟩ ∧
      (50 : Int) ≠ 0 ∧
      (process_action 10 ⟨[⟨1000, 0, false, []⟩], 0, 50, 0, none, []⟩ 0
          ⟨ActionType.bet, 60⟩).2.action_type = ActionType.bet := by
  decide

/-- C4 amended: the minimum-size rules do hold in the validator — an
undersized BET (below the big blind) is bumped to the big blind and an
undersized RAISE (below current bet + big blind) is bumped to that
minimum, provided the proposer's raw amount does not exceed its stack
(otherwise the all-in conversion takes over); but a BET is never
rewritten to a RAISE, whatever the current bet. -/
theorem c4_minimum_bet_raise_bumped (bb B : Int) (p : Player) (a : Action) :
    (a.action_type = ActionType.bet → ¬ a.amount > p.chips →
      (validate_action bb B p a).action_type = ActionType.bet ∧
        (a.amount < bb → (validate_action bb B p a).amount = bb)) ∧
    (a.action_type = ActionType.raise → ¬ a.amount - p.current_bet > p.chips →
      (validate_action bb B p a).action_type = ActionType.raise ∧
        (a.amount < B + bb → (validate_action bb B p a).amount = B + bb)) := by
  obtain ⟨ty, amt⟩ := a
  constructor
  · rintro rfl hle
    refine ⟨?_, fun hlt => ?_⟩
    · simp [validate_action, hle]
    · simp [validate_action, hle, hlt]
  · rintro rfl hle
    refine ⟨?_, fun hlt => ?_⟩
    · simp [validate_action, hle]
    · simp [validate_action, hle, hlt]

/-- C4 amended witness: BET 3 with big blind 10 is bumped to 10; RAISE 55
over current bet 50 with big blind 10 is bumped to 60. -/
theorem c4_minimum_bet_raise_bumped_witness :
    ((ActionType.bet = ActionType.bet → ¬ (3 : Int) > (1000 : Int) →
      (validate_action 10 50 ⟨1000, 0, false, []⟩ ⟨ActionType.bet, 3⟩).action_type = ActionType.bet ∧
        ((3 : Int) < 10 → (validate_action 10 50 ⟨1000, 0, false, []⟩ ⟨ActionType.bet, 3⟩).amount = 10)) ∧
    (ActionType.bet = ActionType.raise → ¬ (3 : Int) - 0 > (1000 : Int) →
      (validate_action 10 50 ⟨1000, 0, false, []⟩ ⟨ActionType.bet, 3⟩).action_type = ActionType.raise ∧
        ((3 : Int) < 50 + 10 → (validate_action 10 50 ⟨1000, 0, false, []⟩ ⟨ActionType.bet, 3⟩).amount = 50 + 10))) ∧
    ((ActionType.raise = ActionType.bet → ¬ (55 : Int) > (1000 : Int) →
      (validate_action 10 50 ⟨1000, 0, false, []⟩ ⟨ActionType.raise, 55⟩).action_type = ActionType.bet ∧
        ((55 : Int) < 10 → (validate_action 10 50 ⟨1000, 0, false, []⟩ ⟨ActionType.raise, 55⟩).amount = 10)) ∧
    (ActionType.raise = ActionType.raise → ¬ (55 : Int) - 0 > (1000 : Int) →
      (validate_action 10 50 ⟨1000, 0, false, []⟩ ⟨ActionType.raise, 55⟩).action_type = ActionType.raise ∧
        ((55 : Int) < 50 + 10 → (validate_action 10 50 ⟨1000, 0, false, []⟩ ⟨ActionType.raise, 55⟩).amount = 50 + 10))) :=
  ⟨c4_minimum_bet_raise_bumped 10 50 ⟨1000, 0, false, []⟩ ⟨ActionType.bet, 3⟩,
   c4_minimum_bet_raise_bumped 10 50 ⟨1000, 0, false, []⟩ ⟨ActionType.raise, 55⟩⟩

/-- C9. The validator is NOT idempotent: with big blind 10, table current
bet 100, and a seat holding 60 chips with no round contribution, a
proposed RAISE of 50 validates to RAISE 110 (bumped to the minimum, and
the insufficient-chips check is made against the raw 50, not the bumped
110); validating that output again yields ALL_IN 60 ≠ RAISE 110. -/
theorem c9_validator_not_idempotent :
    validate_action 10 100 ⟨60, 0, false, []⟩ ⟨ActionType.raise, 50⟩ =
        ⟨ActionType.raise, 110⟩ ∧
      validate_action 10 100 ⟨60, 0, false, []⟩
          (validate_action 10 100 ⟨60, 0, false, []⟩ ⟨ActionType.raise, 50⟩) =
        ⟨ActionType.all_in, 60⟩ ∧
      validate_action 10 100 ⟨60, 0, false, []⟩
          (validate_action 10 100 ⟨60, 0, false, []⟩ ⟨ActionType.raise, 50⟩) ≠
        validate_action 10 100 ⟨60, 0, false, []⟩ ⟨ActionType.raise, 50⟩ := by
  decide

/-- C10. Chip stacks can go negative: a seat with 50 chips that proposes
CHECK while facing a table bet of 100 passes through the validator
unchanged (the validator has no CHECK clause), and the engine's
check-to-call conversion debits the full 100-chip shortfall without
clamping to the stack, leaving the seat at -50 chips. -/
theorem c10_check_conversion_overdraws_stack :
    validate_action 10 100 ⟨50, 0, false, []⟩ ⟨ActionType.check, 0⟩ =
        ⟨ActionType.check, 0⟩ ∧
      ((process_action 10 ⟨[⟨50, 0, false, []⟩, ⟨200, 100, false, []⟩], 100, 100, 0, none, []⟩
          0 ⟨ActionType.check, 0⟩).1.pl 0).chips = -50 ∧
      ((-50 : Int) < 0) := by
  decide

/-! ### InformationSet (models.py: InformationSet; engine.py:
Game.build_information_set; logger.py: display_information_set)

`build_information_set` loops over `self.players` and stores, for every
seat, a per-seat state dict that includes the seat's hole cards under the
key `"hand"` — regardless of whether the seat is the acting one.  The
only hole-card hiding in the program is in the console logger, which
prints a seat's hand only when the seat is active or at showdown.  The
action-history, `is_human`, and blind bookkeeping fields play no part in
the hole-card claims and are omitted. -/

inductive RoundName where
  | blinds
  | preflop
  | flop
  | turn
  | river
  | showdown
deriving DecidableEq

structure PlayerState where
  chips : Int
  current_bet : Int
  folded : Bool
  is_active : Bool
  is_dealer : Bool
  hand : List Card
deriving DecidableEq

instance : Inhabited PlayerState := ⟨⟨0, 0, false, false, false, []⟩⟩

structure InfoSet where
  community_cards : List Card
  pot : Int
  current_bet : Int
  dealer_position : Nat
  current_round : RoundName
  min_call_amount : Int
  player_states : List PlayerState
  num_active_players : Nat
deriving DecidableEq

/-- `Game.build_information_set(current_player_idx)`. -/
def build_information_set (players : List Player) (communityCards : List Card)
    (pot currentBet : Int) (dealerIdx : Nat) (round : RoundName)
    (currentPlayerIdx : Option Nat) : InfoSet :=
  { community_cards := communityCards
    pot := pot
    current_bet := currentBet
    dealer_position := dealerIdx
    current_round := round
    min_call_amount :=
      match currentPlayerIdx with
      | some i => currentBet - (players.getD i default).current_bet
      | none => 0
    player_states :=
      players.enum.map (fun ip =>
        { chips := ip.2.chips
          current_bet := ip.2.current_bet
          folded := ip.2.folded
          is_active := currentPlayerIdx = some ip.1
          is_dealer := dealerIdx = ip.1
          hand := ip.2.hand })
    num_active_players :=
      (players.filter (fun q => ¬ q.folded ∧ 0 < q.chips)).length }

/-- `ConsoleLogger.display_information_set`, hole-card visibility test
(logger.py lines 422-427): a seat's hand is printed only when the seat is
the acting one, or at showdown when it has not folded. -/
def display_shows_hand (ps : PlayerState) (round : RoundName) : Bool :=
  ps.is_active || (round = RoundName.showdown && !ps.folded)

/-- C2 counterexample: changing a NON-acting seat's hole cards changes
the snapshot handed to the decider.  Two states that differ only in seat
1's hole cards, with seat 0 acting pre-flop, build different information
sets, and seat 1's hole cards appear verbatim in the snapshot. -/
theorem c2_snapshot_leaks_other_hole_cards :
    build_information_set
        [⟨100, 0, false, [⟨14, .hearts⟩, ⟨13, .hearts⟩]⟩,
         ⟨100, 0, false, [⟨2, .clubs⟩, ⟨3, .clubs⟩]⟩] [] 0 0 0 RoundName.preflop (some 0) ≠
      build_information_set
        [⟨100, 0, false, [⟨14, .hearts⟩, ⟨13, .hearts⟩]⟩,
         ⟨100, 0, false, [⟨4, .diamonds⟩, ⟨5, .diamonds⟩]⟩] [] 0 0 0 RoundName.preflop (some 0) ∧
      ((build_information_set
        [⟨100, 0, false, [⟨14, .hearts⟩, ⟨13, .hearts⟩]⟩,
         ⟨100, 0, false, [⟨2, .clubs⟩, ⟨3, .clubs⟩]⟩] [] 0 0 0 RoundName.preflop
           (some 0)).player_states.getD 1 default).hand = [⟨2, .clubs⟩, ⟨3, .clubs⟩] := by
  decide

/-- C2 amended: the snapshot exposes EVERY seat's hole cards — for each
seat `i`, the per-seat state it stores carries exactly that seat's hand —
and the hole-card hiding happens only in the console display layer, which
declines to show a hand whenever the seat is not the acting one and the
round is not showdown. -/
theorem c2_all_hands_exposed_display_hides
    (players : List Player) (cc : List Card) (pot cb : Int) (dealer : Nat)
    (round : RoundName) (act : Option Nat) (i : Nat) (hi : i < players.length) :
    ((build_information_set players cc pot cb dealer round act).player_states.getD i
        default).hand = (players.getD i default).hand ∧
      (∀ ps : PlayerState, ps.is_active = false → round ≠ RoundName.showdown →
        display_shows_hand ps round = false) := by
  constructor
  · have hlen : i < (players.enum.map (fun ip =>
        ({ chips := ip.2.chips, current_bet := ip.2.current_bet, folded := ip.2.folded,
           is_active := act = some ip.1, is_dealer := dealer = ip.1,
           hand := ip.2.hand } : PlayerState))).length := by
      simpa using hi
    simp only [build_information_set, List.getD_eq_getElem?_getD]
    rw [List.getElem?_eq_getElem hlen, List.getElem?_eq_getElem hi]
    simp [List.getElem_map, List.getElem_enum]
  · intro ps hact hsd
    simp [display_shows_hand, hact, hsd]

/-- C2 amended witness. -/
theorem c2_all_hands_exposed_witness :
    ((build_information_set
        [⟨100, 0, false, [⟨14, .hearts⟩, ⟨13, .hearts⟩]⟩,
         ⟨100, 0, false, [⟨2, .clubs⟩, ⟨3, .clubs⟩]⟩] [] 0 0 0 RoundName.preflop
          (some 0)).player_states.getD 1 default).hand =
      (([⟨100, 0, false, [⟨14, .hearts⟩, ⟨13, .hearts⟩]⟩,
         ⟨100, 0, false, [⟨2, .clubs⟩, ⟨3, .clubs⟩]⟩] : List Player).getD 1 default).hand ∧
      (∀ ps : PlayerState, ps.is_active = false → RoundName.preflop ≠ RoundName.showdown →
        display_shows_hand ps RoundName.preflop = false) :=
  c2_all_hands_exposed_display_hides
    [⟨100, 0, false, [⟨14, .hearts⟩, ⟨13, .hearts⟩]⟩,
     ⟨100, 0, false, [⟨2, .clubs⟩, ⟨3, .clubs⟩]⟩] [] 0 0 0 RoundName.preflop (some 0) 1
    (by norm_num)

/-! ### Score ordering

Python compares `(category, kickers)` score tuples lexicographically;
`scoreLtB` (defined with the evaluator) is that order.  The showdown
sort needs it to be a strict total order. -/

theorem listLtB_irrefl : ∀ a, listLtB a a = false := by
  intro a
  induction a with
  | nil => rfl
  | cons x l ih => simp [listLtB, ih]

theorem listLtB_antisymm : ∀ a b, listLtB a b = false → listLtB b a = false → a = b := by
  intro a
  induction a with
  | nil =>
    intro b hab _
    cases b with
    | nil => rfl
    | cons y m => simp [listLtB] at hab
  | cons x l ih =>
    intro b hab hba
    cases b with
    | nil => simp [listLtB] at hba
    | cons y m =>
      simp only [listLtB] at hab hba
      by_cases hxy : x < y
      · simp [hxy] at hab
      · by_cases hyx : y < x
        · simp [hyx] at hba
        · have hx : x = y := by omega
          subst hx
          simp [hxy, hyx] at hab hba
          rw [ih m hab hba]

theorem listLtB_trans : ∀ a b c, listLtB a b = true → listLtB b c = true →
    listLtB a c = true := by
  intro a
  induction a with
  | nil =>
    intro b c hab hbc
    cases c with
    | nil =>
      cases b with
      | nil => exact hab
      | cons y m => simp [listLtB] at hbc
    | cons z k => simp [listLtB]
  | cons x l ih =>
    intro b c hab hbc
    cases b with
    | nil => simp [listLtB] at hab
    | cons y m =>
      cases c with
      | nil => simp [listLtB] at hbc
      | cons z k =>
        simp only [listLtB] at hab hbc ⊢
        by_cases hxy : x < y
        · by_cases hyz : y < z
          · simp [show x < z by omega]
          · by_cases hzy : z < y
            · simp [hyz, hzy] at hbc
            · have : y = z := by omega
              subst this
              simp [hxy]
        · by_cases hyx : y < x
          · simp [hxy, hyx] at hab
          · have : x = y := by omega
            subst this
            simp [hxy] at hab
            by_cases hxz : x < z
            · simp [hxz]
            · by_cases hzx : z < x
              · simp [hxz, hzx] at hbc
              · simp [hxz, hzx] at hbc ⊢
                exact ih m k hab hbc

theorem scoreLtB_irrefl (a : HandScore) : scoreLtB a a = false := by
  simp [scoreLtB, listLtB_irrefl]

theorem scoreLtB_antisymm (a b : HandScore) (hab : scoreLtB a b = false)
    (hba : scoreLtB b a = false) : a = b := by
  obtain ⟨ca, la⟩ := a
  obtain ⟨cb, lb⟩ := b
  simp only [scoreLtB] at hab hba
  by_cases h1 : ca < cb
  · simp [h1] at hab
  · by_cases h2 : cb < ca
    · simp [h2] at hba
    · have : ca = cb := by omega
      subst this
      simp [h1, h2] at hab hba
      rw [listLtB_antisymm la lb hab hba]

theorem scoreLtB_trans (a b c : HandScore) (hab : scoreLtB a b = true)
    (hbc : scoreLtB b c = true) : scoreLtB a c = true := by
  obtain ⟨ca, la⟩ := a
  obtain ⟨cb, lb⟩ := b
  obtain ⟨cc, lc⟩ := c
  simp only [scoreLtB] at hab hbc ⊢
  by_cases h1 : ca < cb
  · by_cases h2 : cb < cc
    · simp [show ca < cc by omega]
    · by_cases h3 : cc < cb
      · simp [h2, h3] at hbc
      · have : cb = cc := by omega
        subst this
        simp [h1]
  · by_cases h4 : cb < ca
    · simp [h1, h4] at hab
    · have : ca = cb := by omega
      subst this
      simp [h1] at hab
      by_cases h5 : ca < cc
      · simp [h5]
      · by_cases h6 : cc < ca
        · simp [h5, h6] at hbc
        · simp [h5, h6] at hbc ⊢
          exact listLtB_trans la lb lc hab hbc

/-! ### Showdown (engine.py: Game.showdown)

The hand strengths are supplied through a `scores` function (the
evaluator is pure, so `HandEvaluator.evaluate(player.hand, community)`
is a function of the seat).  `sorted(..., reverse=True)` is Python's
stable descending sort, which is `insertionSort` under the relation
"responds no less than": earlier elements stay before equal-scoring
later ones. -/

/-- "x sorts no later than y" for the stable descending sort. -/
def scoreGeRel (x y : Nat × HandScore) : Prop := scoreLtB x.2 y.2 = false

instance : DecidableRel scoreGeRel := fun x y => by
  unfold scoreGeRel
  infer_instance

instance : IsTotal (Nat × HandScore) scoreGeRel := by
  constructor
  intro x y
  by_cases h : scoreLtB x.2 y.2 = true
  · right
    unfold scoreGeRel
    cases hba : scoreLtB y.2 x.2
    · rfl
    · have := scoreLtB_trans _ _ _ h hba
      rw [scoreLtB_irrefl] at this
      exact absurd this (by simp)
  · left
    unfold scoreGeRel
    simpa using h

instance : IsTrans (Nat × HandScore) scoreGeRel := by
  constructor
  intro x y z hxy hyz
  unfold scoreGeRel at hxy hyz ⊢
  cases hzy : scoreLtB z.2 y.2
  · rw [scoreLtB_antisymm _ _ hyz hzy] at hxy
    exact hxy
  · cases hxz : scoreLtB x.2 z.2
    · rfl
    · have := scoreLtB_trans _ _ _ hxz hzy
      rw [this] at hxy
      exact hxy

/-- Indices of the non-folded seats (`active_players`), in seat order. -/
def showdown_active (players : List Player) : List Nat :=
  (List.range players.length).filter (fun i => !(players.getD i default).folded)

/-- `player_hands`: each active seat paired with its evaluated score. -/
def showdown_hands (players : List Player) (scores : Nat → HandScore) :
    List (Nat × HandScore) :=
  (showdown_active players).map (fun i => (i, scores i))

/-- `player_hands.sort(key=..., reverse=True)`. -/
def showdown_sorted (players : List Player) (scores : Nat → HandScore) :
    List (Nat × HandScore) :=
  List.insertionSort scoreGeRel (showdown_hands players scores)

/-- `best_score = player_hands[0][2]` after sorting. -/
def showdown_best (players : List Player) (scores : Nat → HandScore) : HandScore :=
  ((showdown_sorted players scores).headD (0, (0, []))).2

/-- `winners = [ph for ph in player_hands if ph[2] == best_score]`. -/
def showdown_winners (players : List Player) (scores : Nat → HandScore) :
    List (Nat × HandScore) :=
  (showdown_sorted players scores).filter (fun e => e.2 = showdown_best players scores)

/-- The award loop `for i, (winner, _, _) in enumerate(winners)`: seat
`w.1` receives `pot_per_winner` plus one chip while `i < remainder`. -/
def apply_awards (q r : Int) : List Player → Nat → List (Nat × HandScore) → List Player
  | ps, _, [] => ps
  | ps, j, w :: ws =>
    let p := ps.getD w.1 default
    apply_awards q r
      (ps.set w.1 { p with chips := p.chips + q + (if (j : Int) < r then 1 else 0) })
      (j + 1) ws

/-- The running `total_awarded` of that loop. -/
def award_sum (q r : Int) : Nat → Nat → Int
  | _, 0 => 0
  | j, n + 1 => (q + if (j : Int) < r then 1 else 0) + award_sum q r (j + 1) n

/-- `Game.showdown`: distribute the pot among the winners and zero it.
An all-folded seat list would crash Python on `player_hands[0]`; the
model leaves the state unchanged there. -/
def showdown (players : List Player) (scores : Nat → HandScore) (pot : Int) :
    List Player × Int :=
  match showdown_active players with
  | [] => (players, pot)
  | _ :: _ =>
    let winners := showdown_winners players scores
    let q := pot.fdiv winners.length
    let r := pot.fmod winners.length
    let awarded := apply_awards q r players 0 winners
    let total := award_sum q r 0 winners.length
    -- the "Verify all pot was distributed" repair branch (dead in fact)
    let fixed :=
      if total < pot then
        let w0 := winners.getD 0 default
        let p0 := awarded.getD w0.1 default
        awarded.set w0.1 { p0 with chips := p0.chips + (pot - total) }
      else awarded
    (fixed, 0)

/-! ### Showdown lemmas -/

def chip_sum (ps : List Player) : Int :=
  (ps.map Player.chips).sum

theorem getD_set_self (l : List Player) (i : Nat) (p : Player) (h : i < l.length) :
    (l.set i p).getD i default = p := by
  rw [List.getD_eq_getElem?_getD, List.getElem?_set_self (by simpa using h)]
  rfl

theorem getD_set_ne (l : List Player) (i j : Nat) (p : Player) (h : i ≠ j) :
    (l.set i p).getD j default = l.getD j default := by
  rw [List.getD_eq_getElem?_getD, List.getD_eq_getElem?_getD, List.getElem?_set_ne h]

theorem getD_mem {α} [Inhabited α] (l : List α) (k : Nat) (h : k < l.length) :
    l.getD k default ∈ l := by
  rw [List.getD_eq_getElem?_getD, List.getElem?_eq_getElem h]
  exact List.getElem_mem h

theorem chip_sum_set (ps : List Player) (i : Nat) (p : Player) (h : i < ps.length) :
    chip_sum (ps.set i p) = chip_sum ps - (ps.getD i default).chips + p.chips := by
  induction ps generalizing i with
  | nil => simp at h
  | cons a l ih =>
    cases i with
    | zero =>
      simp [chip_sum]
      ring
    | succ n =>
      have hn : n < l.length := by simpa using h
      have := ih n hn
      simp only [List.set_cons_succ, chip_sum, List.map_cons, List.sum_cons,
        List.getD_cons_succ] at this ⊢
      omega

theorem apply_awards_sum (q r : Int) :
    ∀ (ws : List (Nat × HandScore)) (ps : List Player) (j : Nat),
    (∀ w ∈ ws, w.1 < ps.length) →
    chip_sum (apply_awards q r ps j ws) = chip_sum ps + award_sum q r j ws.length := by
  intro ws
  induction ws with
  | nil =>
    intro ps j _
    simp [apply_awards, award_sum]
  | cons w ws ih =>
    intro ps j hr
    have hw : w.1 < ps.length := hr w (List.mem_cons_self _ _)
    simp only [apply_awards, award_sum, List.length_cons]
    rw [ih _ (j + 1) (fun x hx => by
      rw [List.length_set]
      exact hr x (List.mem_cons_of_mem _ hx))]
    rw [chip_sum_set _ _ _ hw]
    dsimp only
    generalize (if (j : Int) < r then (1 : Int) else 0) = t
    omega

theorem apply_awards_getD_not_mem (q r : Int) :
    ∀ (ws : List (Nat × HandScore)) (ps : List Player) (j i : Nat),
    (∀ w ∈ ws, w.1 ≠ i) →
    (apply_awards q r ps j ws).getD i default = ps.getD i default := by
  intro ws
  induction ws with
  | nil =>
    intro ps j i _
    rfl
  | cons w ws ih =>
    intro ps j i hne
    simp only [apply_awards]
    rw [ih _ (j + 1) i (fun x hx => hne x (List.mem_cons_of_mem _ hx))]
    exact getD_set_ne _ _ _ _ (hne w (List.mem_cons_self _ _))

theorem apply_awards_getD (q r : Int) :
    ∀ (ws : List (Nat × HandScore)) (ps : List Player) (j k : Nat),
    k < ws.length →
    (ws.map Prod.fst).Nodup →
    (∀ w ∈ ws, w.1 < ps.length) →
    ((apply_awards q r ps j ws).getD (ws.getD k default).1 default).chips
      = ((ps.getD (ws.getD k default).1 default)).chips + q
        + (if ((j + k : Nat) : Int) < r then 1 else 0) := by
  intro ws
  induction ws with
  | nil =>
    intro ps j k hk
    simp at hk
  | cons w ws ih =>
    intro ps j k hk hnd hr
    have hndtail : (ws.map Prod.fst).Nodup := (List.nodup_cons.mp (by simpa using hnd)).2
    have hhead : w.1 ∉ ws.map Prod.fst := (List.nodup_cons.mp (by simpa using hnd)).1
    cases k with
    | zero =>
      have hne : ∀ x ∈ ws, x.1 ≠ w.1 := by
        intro x hx hcontra
        exact hhead (hcontra ▸ List.mem_map_of_mem Prod.fst hx)
      simp only [apply_awards, List.getD_cons_zero]
      rw [apply_awards_getD_not_mem q r ws _ (j + 1) w.1 hne,
        getD_set_self _ _ _ (hr w (List.mem_cons_self _ _))]
      simp
    | succ k2 =>
      have hk2 : k2 < ws.length := by simpa using hk
      have htmem : ws.getD k2 default ∈ ws := getD_mem ws k2 hk2
      have htne : w.1 ≠ (ws.getD k2 default).1 := by
        intro hcontra
        exact hhead (hcontra ▸ List.mem_map_of_mem Prod.fst htmem)
      simp only [apply_awards, List.getD_cons_succ]
      rw [ih _ (j + 1) k2 hk2 hndtail (fun x hx => by
        rw [List.length_set]
        exact hr x (List.mem_cons_of_mem _ hx))]
      rw [getD_set_ne _ _ _ _ htne]
      have : ((j + 1 + k2 : Nat) : Int) = ((j + (k2 + 1) : Nat) : Int) := by
        push_cast
        ring
      rw [this]

theorem award_sum_of_le (q r : Int) :
    ∀ (n : Nat) (j : Nat), r ≤ j → award_sum q r j n = n * q := by
  intro n
  induction n with
  | zero =>
    intro j _
    simp [award_sum]
  | succ m ih =>
    intro j hj
    have h1 : ¬ (j : Int) < r := by omega
    have h2 : r ≤ ((j + 1 : Nat) : Int) := by push_cast; omega
    simp only [award_sum, h1, if_false]
    rw [ih (j + 1) h2]
    push_cast
    ring

theorem award_sum_eval (q r : Int) :
    ∀ (n : Nat) (j : Nat), (j : Int) ≤ r → r - j ≤ n →
    award_sum q r j n = n * q + (r - j) := by
  intro n
  induction n with
  | zero =>
    intro j h1 h2
    simp only [award_sum, Nat.cast_zero, zero_mul]
    omega
  | succ m ih =>
    intro j h1 h2
    by_cases hj : (j : Int) < r
    · have hle : ((j + 1 : Nat) : Int) ≤ r := by push_cast; omega
      have hrem : r - ((j + 1 : Nat) : Int) ≤ m := by push_cast at h2 ⊢; omega
      simp only [award_sum, hj, if_true]
      rw [ih (j + 1) hle hrem]
      push_cast
      ring
    · have hrj : r = j := by omega
      simp only [award_sum, hj, if_false]
      rw [award_sum_of_le q r m (j + 1) (by push_cast; omega), hrj]
      push_cast
      ring

theorem filter_orderedInsert_not (p : Nat × HandScore → Bool) (a : Nat × HandScore)
    (hpa : p a = false) :
    ∀ m, (List.orderedInsert scoreGeRel a m).filter p = m.filter p := by
  intro m
  induction m with
  | nil => simp [hpa]
  | cons x xs ih =>
    by_cases h : scoreGeRel a x
    · rw [List.orderedInsert_of_le _ _ h]
      simp [hpa]
    · simp only [List.orderedInsert, if_neg h, List.filter_cons]
      rw [ih]

theorem filter_insertionSort_best (best : HandScore) :
    ∀ l : List (Nat × HandScore), (∀ e ∈ l, scoreLtB best e.2 = false) →
    (List.insertionSort scoreGeRel l).filter (fun e => e.2 = best)
      = l.filter (fun e => e.2 = best) := by
  intro l
  induction l with
  | nil => simp
  | cons a l ih =>
    intro hmax
    have hl : ∀ e ∈ l, scoreLtB best e.2 = false :=
      fun e he => hmax e (List.mem_cons_of_mem _ he)
    simp only [List.insertionSort]
    by_cases ha : a.2 = best
    · have hhead : ∀ x ∈ List.insertionSort scoreGeRel l, scoreGeRel a x := by
        intro x hx
        have hxl : x ∈ l := (List.perm_insertionSort scoreGeRel l).subset hx
        unfold scoreGeRel
        rw [ha]
        exact hl x hxl
      have hins : List.orderedInsert scoreGeRel a (List.insertionSort scoreGeRel l)
          = a :: List.insertionSort scoreGeRel l := by
        cases hs : List.insertionSort scoreGeRel l with
        | nil => simp
        | cons y ys =>
          exact List.orderedInsert_of_le _ _
            (hhead y (by rw [hs]; exact List.mem_cons_self _ _))
      rw [hins]
      simp only [List.filter_cons, decide_eq_true_eq, ha, if_true]
      rw [ih hl]
    · rw [filter_orderedInsert_not _ a (by simp [ha]) _]
      rw [ih hl]
      simp [ha]

theorem showdown_best_max (players : List Player) (scores : Nat → HandScore) :
    ∀ e ∈ showdown_hands players scores,
      scoreLtB (showdown_best players scores) e.2 = false := by
  intro e he
  have hmem : e ∈ showdown_sorted players scores :=
    ((List.perm_insertionSort scoreGeRel _).mem_iff).mpr he
  have hsorted : List.Sorted scoreGeRel (showdown_sorted players scores) :=
    List.sorted_insertionSort scoreGeRel _
  unfold showdown_best
  cases hs : showdown_sorted players scores with
  | nil =>
    rw [hs] at hmem
    simp at hmem
  | cons y ys =>
    rw [hs] at hmem hsorted
    simp only [List.headD_cons]
    rcases List.mem_cons.mp hmem with h | h
    · subst h
      exact scoreLtB_irrefl _
    · exact List.rel_of_sorted_cons hsorted e h

theorem showdown_hands_fst (players : List Player) (scores : Nat → HandScore) :
    (showdown_hands players scores).map Prod.fst = showdown_active players := by
  unfold showdown_hands
  rw [List.map_map]
  exact List.map_id'' (fun x => rfl) _

theorem showdown_active_lt (players : List Player) :
    ∀ i ∈ showdown_active players, i < players.length := by
  intro i hi
  exact List.mem_range.mp (List.mem_of_mem_filter hi)

theorem showdown_winners_props (players : List Player) (scores : Nat → HandScore) :
    ((showdown_winners players scores).map Prod.fst).Nodup ∧
      (∀ w ∈ showdown_winners players scores, w.1 < players.length) := by
  have hperm : List.Perm ((showdown_sorted players scores).map Prod.fst)
      (showdown_active players) := by
    rw [← showdown_hands_fst players scores]
    exact (List.perm_insertionSort scoreGeRel _).map _
  have hsnd : ((showdown_sorted players scores).map Prod.fst).Nodup :=
    hperm.symm.nodup ((List.nodup_range _).filter _)
  constructor
  · exact List.Nodup.sublist ((List.filter_sublist _).map Prod.fst) hsnd
  · intro w hw
    have hws : w ∈ showdown_sorted players scores := List.mem_of_mem_filter hw
    have : w.1 ∈ showdown_active players :=
      hperm.subset (List.mem_map_of_mem Prod.fst hws)
    exact showdown_active_lt players w.1 this

/-- C6. Showdown pot split: with at least one non-folded seat, the pot
is divided among exactly the seats tying for the maximal HandScore, in
seat order (the winners list equals the seat-order filter of the active
hands by the best score, every winner carries the best score, and the
best score is maximal); the `k`-th tying seat receives
`pot // n + (1 if k < pot % n else 0)` — one extra unit per seat from the
first — the total awarded equals the pot (the chip sum grows by exactly
`pot`), and the pot is zero immediately after distribution.  In
particular a pot of 181 split between exactly 2 tying winners yields 91
to the first tying seat and 90 to the second. -/
theorem c6_showdown_pot_split (players : List Player) (scores : Nat → HandScore)
    (pot : Int) (hact : showdown_active players ≠ []) :
    (showdown players scores pot).2 = 0 ∧
      chip_sum (showdown players scores pot).1 = chip_sum players + pot ∧
      showdown_winners players scores
        = (showdown_hands players scores).filter
            (fun e => e.2 = showdown_best players scores) ∧
      (∀ e ∈ showdown_winners players scores, e.2 = showdown_best players scores) ∧
      (∀ e ∈ showdown_hands players scores,
        scoreLtB (showdown_best players scores) e.2 = false) ∧
      (∀ k, k < (showdown_winners players scores).length →
        ((showdown players scores pot).1.getD
            ((showdown_winners players scores).getD k default).1 default).chips
          = (players.getD ((showdown_winners players scores).getD k default).1
                default).chips
            + pot.fdiv ((showdown_winners players scores).length : Int)
            + (if (k : Int) < pot.fmod ((showdown_winners players scores).length : Int)
                then 1 else 0)) ∧
      showdown [⟨10, 0, false, []⟩, ⟨20, 0, false, []⟩] (fun _ => (4, [8])) 181
        = ([⟨101, 0, false, []⟩, ⟨110, 0, false, []⟩], 0) := by
  obtain ⟨a, rest, hA⟩ : ∃ a rest, showdown_active players = a :: rest := by
    cases h : showdown_active players with
    | nil => exact absurd h hact
    | cons a rest => exact ⟨a, rest, rfl⟩
  have hhne : showdown_hands players scores ≠ [] := by
    unfold showdown_hands
    rw [hA]
    simp
  obtain ⟨y, ys, hS⟩ : ∃ y ys, showdown_sorted players scores = y :: ys := by
    cases h : showdown_sorted players scores with
    | nil =>
      exfalso
      apply hhne
      have hp := (List.perm_insertionSort scoreGeRel (showdown_hands players scores)).symm
      rw [show List.insertionSort scoreGeRel (showdown_hands players scores)
          = showdown_sorted players scores from rfl, h] at hp
      exact hp.eq_nil
    | cons y ys => exact ⟨y, ys, rfl⟩
  have hymem : y ∈ showdown_winners players scores := by
    unfold showdown_winners
    rw [hS]
    apply List.mem_filter.mpr
    refine ⟨List.mem_cons_self _ _, ?_⟩
    simp [showdown_best, hS]
  have hWne : showdown_winners players scores ≠ [] := List.ne_nil_of_mem hymem
  have hn : 0 < (showdown_winners players scores).length := List.length_pos.mpr hWne
  have hnpos : (0 : Int) < ((showdown_winners players scores).length : Int) := by
    exact_mod_cast hn
  obtain ⟨hnd, hrange⟩ := showdown_winners_props players scores
  have hr0 : 0 ≤ pot.fmod ((showdown_winners players scores).length : Int) := by
    rw [Int.fmod_eq_emod pot (le_of_lt hnpos)]
    exact Int.emod_nonneg pot (ne_of_gt hnpos)
  have hrlt : pot.fmod ((showdown_winners players scores).length : Int)
      < ((showdown_winners players scores).length : Int) := by
    rw [Int.fmod_eq_emod pot (le_of_lt hnpos)]
    exact Int.emod_lt_of_pos pot hnpos
  have htot : award_sum (pot.fdiv ((showdown_winners players scores).length : Int))
      (pot.fmod ((showdown_winners players scores).length : Int)) 0
      (showdown_winners players scores).length = pot := by
    rw [award_sum_eval _ _ (showdown_winners players scores).length 0
      (by push_cast; exact hr0) (by push_cast; omega)]
    have hdm := Int.fdiv_add_fmod pot ((showdown_winners players scores).length : Int)
    push_cast
    linarith
  have hshow : showdown players scores pot
      = (apply_awards (pot.fdiv ((showdown_winners players scores).length : Int))
          (pot.fmod ((showdown_winners players scores).length : Int))
          players 0 (showdown_winners players scores), 0) := by
    unfold showdown
    rw [hA]
    simp only [htot, lt_irrefl, if_false]
  refine ⟨by rw [hshow], ?_, ?_, ?_, showdown_best_max players scores, ?_, by decide⟩
  · rw [hshow]
    simp only
    rw [apply_awards_sum _ _ _ _ _ hrange, htot]
  · unfold showdown_winners showdown_sorted
    exact filter_insertionSort_best _ _ (showdown_best_max players scores)
  · intro e he
    have := (List.mem_filter.mp he).2
    simpa using this
  · intro k hk
    rw [hshow]
    simp only
    have := apply_awards_getD (pot.fdiv ((showdown_winners players scores).length : Int))
      (pot.fmod ((showdown_winners players scores).length : Int))
      (showdown_winners players scores) players 0 k hk hnd hrange
    simpa using this

/-- C6 witness: the 181-pot scenario discharges the nonempty-contender
hypothesis. -/
theorem c6_showdown_pot_split_witness :
    (showdown [⟨10, 0, false, []⟩, ⟨20, 0, false, []⟩] (fun _ => (4, [8])) 181).2 = 0 ∧
      chip_sum (showdown [⟨10, 0, false, []⟩, ⟨20, 0, false, []⟩]
          (fun _ => (4, [8])) 181).1
        = chip_sum [⟨10, 0, false, []⟩, ⟨20, 0, false, []⟩] + 181 :=
  ⟨(c6_showdown_pot_split [⟨10, 0, false, []⟩, ⟨20, 0, false, []⟩]
      (fun _ => (4, [8])) 181 (by decide)).1,
   (c6_showdown_pot_split [⟨10, 0, false, []⟩, ⟨20, 0, false, []⟩]
      (fun _ => (4, [8])) 181 (by decide)).2.1⟩

/-! ### Hand-level operations and chip conservation (C1)

`play_hand` moves chips only through: blind posting (`post_blind`),
validated player actions applied by `betting_round` (`process_action`
after `validate_action`), the showdown split (`showdown`), and the
last-player award (`award_pot`).  `run_ops` folds an arbitrary sequence
of those operations, so "every observable point within a hand" is the
state after an arbitrary prefix. -/

/-- `award_pot`: the first non-folded seat takes the pot. -/
def award_pot_players (pot : Int) : List Player → List Player
  | [] => []
  | p :: ps =>
    if p.folded then p :: award_pot_players pot ps
    else { p with chips := p.chips + pot } :: ps

inductive HandOp where
  | post_blind_op (idx : Nat) (amount : Int)
  | player_action (idx : Nat) (a : Action)
  | showdown_op (scores : Nat → HandScore)
  | award_pot_op

/-- One chip-moving operation of `play_hand`. -/
def run_op (bb : Int) (st : RoundSt) (op : HandOp) : RoundSt :=
  match op with
  | HandOp.post_blind_op idx amount =>
    if idx < st.players.length then
      let p := st.pl idx
      let betAmt := min p.chips amount
      { st with
          players := st.players.set idx
            { p with chips := p.chips - betAmt, current_bet := betAmt },
          pot := st.pot + betAmt }
    else st
  | HandOp.player_action idx a =>
    (process_action bb st idx (validate_action bb st.current_bet (st.pl idx) a)).1
  | HandOp.showdown_op scores =>
    let r := showdown st.players scores st.pot
    { st with players := r.1, pot := r.2 }
  | HandOp.award_pot_op =>
    if st.players.any (fun p => !p.folded) then
      { st with players := award_pot_players st.pot st.players, pot := 0 }
    else st

def run_ops (bb : Int) (st : RoundSt) (ops : List HandOp) : RoundSt :=
  ops.foldl (run_op bb) st

theorem award_pot_players_sum (pot : Int) :
    ∀ ps : List Player, ps.any (fun p => !p.folded) = true →
    chip_sum (award_pot_players pot ps) = chip_sum ps + pot := by
  intro ps
  induction ps with
  | nil => intro h; simp at h
  | cons p ps ih =>
    intro h
    by_cases hf : p.folded
    · have hrest : ps.any (fun q => !q.folded) = true := by
        simp only [List.any_cons, hf] at h
        simpa using h
      simp only [award_pot_players, hf, if_true, chip_sum, List.map_cons, List.sum_cons]
      have := ih hrest
      simp only [chip_sum] at this
      omega
    · have hf' : p.folded = false := by simpa using hf
      simp [award_pot_players, hf', chip_sum]
      omega

theorem showdown_reduce (players : List Player) (scores : Nat → HandScore) (pot : Int)
    (hact : showdown_active players ≠ []) :
    showdown players scores pot
      = (apply_awards (pot.fdiv ((showdown_winners players scores).length : Int))
          (pot.fmod ((showdown_winners players scores).length : Int))
          players 0 (showdown_winners players scores), 0) ∧
      award_sum (pot.fdiv ((showdown_winners players scores).length : Int))
        (pot.fmod ((showdown_winners players scores).length : Int)) 0
        (showdown_winners players scores).length = pot := by
  obtain ⟨a, rest, hA⟩ : ∃ a rest, showdown_active players = a :: rest := by
    cases h : showdown_active players with
    | nil => exact absurd h hact
    | cons a rest => exact ⟨a, rest, rfl⟩
  have hhne : showdown_hands players scores ≠ [] := by
    unfold showdown_hands
    rw [hA]
    simp
  obtain ⟨y, ys, hS⟩ : ∃ y ys, showdown_sorted players scores = y :: ys := by
    cases h : showdown_sorted players scores with
    | nil =>
      exfalso
      apply hhne
      have hp := (List.perm_insertionSort scoreGeRel (showdown_hands players scores)).symm
      rw [show List.insertionSort scoreGeRel (showdown_hands players scores)
          = showdown_sorted players scores from rfl, h] at hp
      exact hp.eq_nil
    | cons y ys => exact ⟨y, ys, rfl⟩
  have hymem : y ∈ showdown_winners players scores := by
    unfold showdown_winners
    rw [hS]
    apply List.mem_filter.mpr
    refine ⟨List.mem_cons_self _ _, ?_⟩
    simp [showdown_best, hS]
  have hn : 0 < (showdown_winners players scores).length :=
    List.length_pos.mpr (List.ne_nil_of_mem hymem)
  have hnpos : (0 : Int) < ((showdown_winners players scores).length : Int) := by
    exact_mod_cast hn
  have hr0 : 0 ≤ pot.fmod ((showdown_winners players scores).length : Int) := by
    rw [Int.fmod_eq_emod pot (le_of_lt hnpos)]
    exact Int.emod_nonneg pot (ne_of_gt hnpos)
  have hrlt : pot.fmod ((showdown_winners players scores).length : Int)
      < ((showdown_winners players scores).length : Int) := by
    rw [Int.fmod_eq_emod pot (le_of_lt hnpos)]
    exact Int.emod_lt_of_pos pot hnpos
  have htot : award_sum (pot.fdiv ((showdown_winners players scores).length : Int))
      (pot.fmod ((showdown_winners players scores).length : Int)) 0
      (showdown_winners players scores).length = pot := by
    rw [award_sum_eval _ _ (showdown_winners players scores).length 0
      (by push_cast; exact hr0) (by push_cast; omega)]
    have hdm := Int.fdiv_add_fmod pot ((showdown_winners players scores).length : Int)
    push_cast
    linarith
  refine ⟨?_, htot⟩
  unfold showdown
  rw [hA]
  simp only [htot, lt_irrefl, if_false]

theorem showdown_conserves (players : List Player) (scores : Nat → HandScore)
    (pot : Int) :
    chip_sum (showdown players scores pot).1 + (showdown players scores pot).2
      = chip_sum players + pot := by
  by_cases hact : showdown_active players = []
  · unfold showdown
    rw [hact]
  · obtain ⟨hred, htot⟩ := showdown_reduce players scores pot hact
    obtain ⟨_, hrange⟩ := showdown_winners_props players scores
    rw [hred]
    simp only
    rw [apply_awards_sum _ _ _ _ _ hrange, htot]
    ring

theorem process_bet_raise_conserves (st : RoundSt) (idx : Nat) (ty : ActionType)
    (amt : Int) (hidx : idx < st.players.length) :
    chip_sum (process_bet_raise st idx (st.pl idx) ty amt).1.players
        + (process_bet_raise st idx (st.pl idx) ty amt).1.pot
      = chip_sum st.players + st.pot := by
  have hset : ∀ q : Player, chip_sum (st.players.set idx q)
      = chip_sum st.players - (st.pl idx).chips + q.chips :=
    fun q => chip_sum_set st.players idx q hidx
  unfold process_bet_raise
  dsimp only
  split_ifs with h1 h2
  · simp only [hset]
    omega
  · simp only [hset]
    omega
  · simp only [hset]
    omega

theorem process_action_conserves (bb : Int) (st : RoundSt) (idx : Nat) (a : Action) :
    chip_sum (process_action bb st idx a).1.players + (process_action bb st idx a).1.pot
      = chip_sum st.players + st.pot := by
  obtain ⟨ty, amt⟩ := a
  by_cases hidx : idx < st.players.length
  · have hset : ∀ q : Player, chip_sum (st.players.set idx q)
        = chip_sum st.players - (st.pl idx).chips + q.chips :=
      fun q => chip_sum_set st.players idx q hidx
    cases ty
    · -- big_blind
      simp [process_action, hidx]
    · -- small_blind
      simp [process_action, hidx]
    · -- bet
      simp only [process_action, hidx, if_true]
      exact process_bet_raise_conserves st idx _ _ hidx
    · -- call
      simp only [process_action, hidx, if_true]
      simp only [hset]
      omega
    · -- raise
      simp only [process_action, hidx, if_true]
      exact process_bet_raise_conserves st idx _ _ hidx
    · -- check
      simp only [process_action, hidx, if_true]
      split_ifs with h1
      · simp only [hset]
        omega
      · rfl
    · -- fold
      simp only [process_action, hidx, if_true]
      simp only [hset]
      omega
    · -- all_in
      simp only [process_action, hidx, if_true]
      split_ifs with h1
      · simp only [hset]
        omega
      · simp only [hset]
        omega
  · simp [process_action, hidx]

theorem run_op_conserves (bb : Int) (st : RoundSt) (op : HandOp) :
    chip_sum (run_op bb st op).players + (run_op bb st op).pot
      = chip_sum st.players + st.pot := by
  cases op with
  | post_blind_op idx amount =>
    unfold run_op
    by_cases hidx : idx < st.players.length
    · have hset : ∀ q : Player, chip_sum (st.players.set idx q)
          = chip_sum st.players - (st.pl idx).chips + q.chips :=
        fun q => chip_sum_set st.players idx q hidx
      simp only [hidx, if_true, hset]
      omega
    · simp [hidx]
  | player_action idx a => exact process_action_conserves bb st idx _
  | showdown_op scores =>
    unfold run_op
    exact showdown_conserves st.players scores st.pot
  | award_pot_op =>
    unfold run_op
    by_cases hany : st.players.any (fun p => !p.folded) = true
    · simp only [hany, if_true]
      rw [award_pot_players_sum st.pot st.players hany]
      omega
    · simp [hany]

/-- C1. Chip conservation: for every starting state and every sequence
of the hand's chip-moving operations — blind posting, validated player
actions (check, call, bet, raise, all-in, fold), the showdown split, and
the last-player pot award — the sum of all seats' chip stacks plus the
pot after running the sequence equals the sum before it.  Since the
sequence is arbitrary, the invariant holds at every observable point
within a hand. -/
theorem c1_chip_conservation (bb : Int) (ops : List HandOp) (st : RoundSt) :
    chip_sum (run_ops bb st ops).players + (run_ops bb st ops).pot
      = chip_sum st.players + st.pot := by
  induction ops generalizing st with
  | nil => rfl
  | cons op ops ih =>
    simp only [run_ops, List.foldl_cons]
    rw [show List.foldl (run_op bb) (run_op bb st op) ops
        = run_ops bb (run_op bb st op) ops from rfl]
    rw [ih (run_op bb st op)]
    exact run_op_conserves bb st op

/-! ### The betting-round loop (engine.py: Game.betting_round)

The `while True` loop walks `current_idx` cyclically, skipping folded and
zero-chip seats; an un-skipped seat's decision (`make_decision`) is
validated and processed, and the three termination checks run after
every processed action, in source order.  Decisions are abstracted as a
stream `dec : Nat → Action` indexed by the number of actions taken so
far (each run of the Python loop consumes some such sequence).  The
recursion is fuel-indexed; `none` means the fuel ran out. -/

/-- `active_non_allin_players`: seats that are non-folded with chips>0. -/
def active_non_allin (st : RoundSt) : List Nat :=
  (List.range st.players.length).filter
    (fun i => !(st.pl i).folded && decide (0 < (st.pl i).chips))

/-- `all(idx in acted_since_last_raise for idx in active_non_allin_players)`. -/
def all_acted (st : RoundSt) : Bool :=
  (active_non_allin st).all (fun i => decide (i ∈ st.acted))

/-- `count_active_players`: non-folded seats (all-in ones included). -/
def count_active (ps : List Player) : Nat :=
  (ps.filter (fun p => !p.folded)).length

def betting_loop (bb : Int) (dec : Nat → Action) (start_idx : Nat) :
    Nat → Nat → RoundSt → Option (RoundSt × Nat)
  | 0, _, _ => none
  | fuel + 1, count, st =>
    if (st.pl st.current_idx).folded = true ∨ (st.pl st.current_idx).chips = 0 then
      betting_loop bb dec start_idx fuel count
        { st with current_idx := (st.current_idx + 1) % st.players.length }
    else
      let a := validate_action bb st.current_bet (st.pl st.current_idx) (dec count)
      let st1 := (process_action bb st st.current_idx a).1
      let st2 := { st1 with current_idx := (st1.current_idx + 1) % st.players.length }
      if all_acted st2 = true then some (st2, count + 1)
      else if st2.last_raiser = none ∧ st2.current_idx = start_idx then
        some (st2, count + 1)
      else if count_active st2.players ≤ 1 then some (st2, count + 1)
      else betting_loop bb dec start_idx fuel (count + 1) st2

/-- Eligibility at round start: non-folded and holding chips. -/
def eligibleB (players : List Player) (i : Nat) : Bool :=
  !(players.getD i default).folded && decide (0 < (players.getD i default).chips)

/-- `Game.betting_round`: pre-loop reset (current bets are cleared except
pre-flop), the early return when at most one seat can act, then the
loop from `start_idx` with fresh `last_raiser`/`acted` tracking. -/
def betting_round (bb : Int) (dec : Nat → Action) (preflop : Bool)
    (players : List Player) (pot curB : Int) (start_idx fuel : Nat) :
    Option (RoundSt × Nat) :=
  let players1 :=
    if preflop then players else players.map (fun p => { p with current_bet := 0 })
  let curB1 := if preflop then curB else 0
  let st0 : RoundSt := ⟨players1, pot, curB1, start_idx, none, []⟩
  if (players1.filter (fun p => !p.folded && decide (0 < p.chips))).length ≤ 1 then
    some (st0, 0)
  else betting_loop bb dec start_idx fuel 0 st0

/-- A decision that can never raise: check, call, or fold. -/
def nice3 (d : Action) : Prop :=
  d.action_type = ActionType.check ∨ d.action_type = ActionType.call ∨
    d.action_type = ActionType.fold

/-- A genuine player decision (not a blind posting). -/
def type6 (d : Action) : Prop :=
  d.action_type ≠ ActionType.small_blind ∧ d.action_type ≠ ActionType.big_blind

/-- The loop acts on seat `i` when reached: not folded, chips nonzero. -/
def actsPredB (st : RoundSt) (i : Nat) : Bool :=
  !(st.pl i).folded && !(decide ((st.pl i).chips = 0))

/-- A "fresh actor": would act and has not acted since the last raise. -/
def predFresh (st : RoundSt) (i : Nat) : Bool :=
  actsPredB st i && !(decide (i ∈ st.acted))

/-! ### Counting over index windows -/

/-- Head-first counter: `cnt m f` counts `d < m` with `f d = true`. -/
def cnt : Nat → (Nat → Bool) → Nat
  | 0, _ => 0
  | m + 1, f => (if f 0 then 1 else 0) + cnt m (fun d => f (d + 1))

theorem cnt_congr : ∀ (m : Nat) (f g : Nat → Bool), (∀ d, d < m → f d = g d) →
    cnt m f = cnt m g := by
  intro m
  induction m with
  | zero => intro f g _; rfl
  | succ k ih =>
    intro f g h
    simp only [cnt, h 0 (Nat.succ_pos k)]
    rw [ih _ _ (fun d hd => h (d + 1) (by omega))]

theorem cnt_mono : ∀ (m : Nat) (f g : Nat → Bool),
    (∀ d, d < m → f d = true → g d = true) → cnt m f ≤ cnt m g := by
  intro m
  induction m with
  | zero => intro f g _; exact le_refl 0
  | succ k ih =>
    intro f g h
    simp only [cnt]
    have h1 : (if f 0 then 1 else 0) ≤ (if g 0 then 1 else 0) := by
      by_cases hf : f 0 = true
      · simp [hf, h 0 (Nat.succ_pos k) hf]
      · simp [hf]
    have h2 := ih _ _ (fun d hd hfd => h (d + 1) (by omega) hfd)
    omega

theorem cnt_zero_of_false : ∀ (m : Nat) (f : Nat → Bool),
    (∀ d, d < m → f d = false) → cnt m f = 0 := by
  intro m
  induction m with
  | zero => intro f _; rfl
  | succ k ih =>
    intro f h
    simp only [cnt, h 0 (Nat.succ_pos k)]
    simpa using ih _ (fun d hd => h (d + 1) (by omega))

theorem cnt_succ_last : ∀ (m : Nat) (f : Nat → Bool),
    cnt (m + 1) f = cnt m f + (if f m then 1 else 0) := by
  intro m
  induction m with
  | zero =>
    intro f
    simp [cnt]
  | succ k ih =>
    intro f
    have h1 : cnt (k + 1 + 1) f
        = (if f 0 then 1 else 0) + cnt (k + 1) (fun d => f (d + 1)) := rfl
    have h2 : cnt (k + 1) f = (if f 0 then 1 else 0) + cnt k (fun d => f (d + 1)) := rfl
    rw [h1, ih (fun d => f (d + 1)), h2]
    omega

theorem cnt_eq_filter_range : ∀ (m : Nat) (f : Nat → Bool),
    cnt m f = ((List.range m).filter f).length := by
  intro m
  induction m with
  | zero => intro f; rfl
  | succ k ih =>
    intro f
    rw [cnt_succ_last, List.range_succ, List.filter_append, List.length_append, ih]
    simp [List.filter_cons]
    by_cases hf : f k = true
    · simp [hf]
    · simp [hf]

theorem cnt_erase : ∀ (n : Nat) (E : Nat → Bool) (j : Nat), j < n → E j = true →
    cnt n (fun i => E i && !(i == j)) + 1 = cnt n E := by
  intro n
  induction n with
  | zero => intro E j hj _; omega
  | succ k ih =>
    intro E j hj hE
    have h2 : cnt (k + 1) E = (if E 0 = true then 1 else 0) + cnt k (fun d => E (d + 1)) := rfl
    cases j with
    | zero =>
      have h1 : cnt (k + 1) (fun i => E i && !(i == 0))
          = (if (E 0 && !((0 : Nat) == 0)) = true then 1 else 0)
            + cnt k (fun d => E (d + 1) && !((d + 1 : Nat) == 0)) := rfl
      rw [h1, h2]
      rw [cnt_congr k (fun d => E (d + 1) && !((d + 1 : Nat) == 0)) (fun d => E (d + 1))
        (fun d _ => by simp)]
      have hh : (E 0 && !((0 : Nat) == 0)) = false := by simp
      rw [hh, hE]
      norm_num
      omega
    | succ j2 =>
      have hj2 : j2 < k := by omega
      have h1 : cnt (k + 1) (fun i => E i && !(i == j2 + 1))
          = (if (E 0 && !((0 : Nat) == j2 + 1)) = true then 1 else 0)
            + cnt k (fun d => E (d + 1) && !((d + 1 : Nat) == j2 + 1)) := rfl
      rw [h1, h2]
      rw [cnt_congr k (fun d => E (d + 1) && !((d + 1 : Nat) == j2 + 1))
        (fun d => E (d + 1) && !(d == j2)) (fun d _ => by simp)]
      have hrec : cnt k (fun d => E (d + 1) && !(d == j2)) + 1 = cnt k (fun d => E (d + 1)) :=
        ih (fun d => E (d + 1)) j2 hj2 hE
      have hh : (E 0 && !((0 : Nat) == j2 + 1)) = E 0 := by simp
      rw [hh]
      omega

/-! ### Modular index arithmetic -/

theorem mod_step (s t n : Nat) : ((s + t) % n + 1) % n = (s + (t + 1)) % n := by
  rw [Nat.mod_add_mod, Nat.add_assoc]

theorem mod_inj (n s a b : Nat) (ha : a < n) (hb : b < n)
    (h : (s + a) % n = (s + b) % n) : a = b := by
  have hmod : a % n = b % n := Nat.ModEq.add_left_cancel' s h
  rwa [Nat.mod_eq_of_lt ha, Nat.mod_eq_of_lt hb] at hmod

theorem mod_surj (n s i : Nat) (hn : 0 < n) (hi : i < n) :
    ∃ d, d < n ∧ (s + d) % n = i := by
  refine ⟨(i + n - s % n) % n, Nat.mod_lt _ hn, ?_⟩
  have hsn : s % n < n := Nat.mod_lt _ hn
  calc (s + (i + n - s % n) % n) % n
      = (s % n + (i + n - s % n) % n) % n := by
        rw [Nat.mod_add_mod]
    _ = (s % n + (i + n - s % n)) % n := by
        rw [Nat.add_mod_mod]
    _ = (i + n) % n := by
        congr 1
        omega
    _ = i := by
        rw [Nat.add_mod_right, Nat.mod_eq_of_lt hi]

theorem mod_ne_start (n s u : Nat) (hs : s < n) (hu0 : 0 < u) (hun : u < n) :
    (s + u) % n ≠ s := by
  intro h
  have h0 : (s + 0) % n = s := by
    rw [Nat.add_zero, Nat.mod_eq_of_lt hs]
  have := mod_inj n s u 0 hun (by omega) (by rw [h, h0])
  omega

theorem mod_lt_len (n x : Nat) (hn : 0 < n) : x % n < n := Nat.mod_lt _ hn

/-- Counting a predicate around one full cycle equals counting it over
the seats directly. -/
theorem cnt_rotate (f : Nat → Bool) (n s : Nat) (hn : 0 < n) :
    cnt n (fun d => f ((s + d) % n)) = cnt n f := by
  have hsn : s % n < n := Nat.mod_lt _ hn
  have hmap : (List.range n).map (fun d => (s + d) % n)
      = List.range' (s % n) (n - s % n) ++ List.range' 0 (s % n) := by
    apply List.ext_getElem
    · simp
      omega
    · intro i h1 h2
      simp only [List.getElem_map, List.getElem_range]
      have hin : i < n := by simpa using h1
      by_cases hc : i < n - s % n
      · rw [List.getElem_append_left (by simpa using hc)]
        simp only [List.getElem_range', one_mul]
        have hlt : s % n + i < n := by omega
        rw [← Nat.mod_add_mod, Nat.mod_eq_of_lt hlt]
      · have hge : (List.range' (s % n) (n - s % n)).length ≤ i := by simpa using hc
        rw [List.getElem_append_right hge]
        simp only [List.getElem_range', List.length_range', one_mul]
        have h2n : s % n + i ≥ n := by omega
        rw [← Nat.mod_add_mod, Nat.mod_eq_sub_mod h2n, Nat.mod_eq_of_lt (by omega)]
        omega
  calc cnt n (fun d => f ((s + d) % n))
      = (List.range n).countP (fun d => f ((s + d) % n)) := by
        rw [cnt_eq_filter_range, ← List.countP_eq_length_filter]
    _ = ((List.range n).map (fun d => (s + d) % n)).countP f :=
        (List.countP_map f (fun d => (s + d) % n) (List.range n)).symm
    _ = (List.range' (s % n) (n - s % n) ++ List.range' 0 (s % n)).countP f := by
        rw [hmap]
    _ = (List.range' 0 (s % n) ++ List.range' (s % n) (n - s % n)).countP f :=
        List.perm_append_comm.countP_eq f
    _ = (List.range n).countP f := by
        have happ := List.range'_append_1 0 (s % n) (n - s % n)
        rw [Nat.zero_add] at happ
        rw [happ, show n - s % n + s % n = n by omega, ← List.range_eq_range']
    _ = cnt n f := by
        rw [cnt_eq_filter_range, ← List.countP_eq_length_filter]

theorem cnt_pos : ∀ (m : Nat) (f : Nat → Bool) (d : Nat), d < m → f d = true → 0 < cnt m f := by
  intro m
  induction m with
  | zero => intro f d hd _; omega
  | succ k ih =>
    intro f d hd hf
    have h1 : cnt (k + 1) f = (if f 0 then 1 else 0) + cnt k (fun e => f (e + 1)) := rfl
    rw [h1]
    cases d with
    | zero =>
      have h2 : (1 : Nat) ≤ (if f 0 = true then 1 else 0) := by simp [hf]
      omega
    | succ e =>
      have := ih (fun x => f (x + 1)) e (by omega) hf
      omega

theorem cnt_exists : ∀ (m : Nat) (f : Nat → Bool), 0 < cnt m f → ∃ d, d < m ∧ f d = true := by
  intro m
  induction m with
  | zero => intro f h; simp [cnt] at h
  | succ k ih =>
    intro f h
    by_cases h0 : f 0 = true
    · exact ⟨0, Nat.succ_pos k, h0⟩
    · have h1 : cnt (k + 1) f = (if f 0 then 1 else 0) + cnt k (fun e => f (e + 1)) := rfl
      rw [h1] at h
      simp [h0] at h
      obtain ⟨d, hd, hfd⟩ := ih (fun e => f (e + 1)) h
      exact ⟨d + 1, by omega, hfd⟩

/-- A list `countP` is the window count of the predicate read through `getD`. -/
theorem countP_eq_cnt {α} [Inhabited α] :
    ∀ (ps : List α) (p : α → Bool), ps.countP p = cnt ps.length (fun i => p (ps.getD i default)) := by
  intro ps
  induction ps with
  | nil => intro p; rfl
  | cons x xs ih =>
    intro p
    have h1 : cnt (x :: xs).length (fun i => p ((x :: xs).getD i default))
        = (if p ((x :: xs).getD 0 default) then 1 else 0)
          + cnt xs.length (fun d => p ((x :: xs).getD (d + 1) default)) := rfl
    rw [h1]
    simp only [List.getD_cons_zero, List.getD_cons_succ, List.countP_cons]
    rw [ih]
    omega

/-- The pre-flop reset map leaves eligibility untouched (it only clears
per-seat current bets). -/
theorem eligibleB_map (players : List Player) (i : Nat) :
    eligibleB (players.map (fun p => { p with current_bet := 0 })) i = eligibleB players i := by
  unfold eligibleB
  rw [List.getD_eq_getElem?_getD, List.getD_eq_getElem?_getD, List.getElem?_map]
  cases players[i]? with
  | none => rfl
  | some p => rfl

theorem chips_map (players : List Player) (i : Nat) :
    ((players.map (fun p => ({ p with current_bet := 0 } : Player))).getD i default).chips
      = (players.getD i default).chips := by
  rw [List.getD_eq_getElem?_getD, List.getD_eq_getElem?_getD, List.getElem?_map]
  cases players[i]? with
  | none => rfl
  | some p => rfl

/-- Effect of a validated-then-processed CHECK or CALL decision: the seat
is inserted into `acted_since_last_raise`, no other bookkeeping field
changes, no other seat changes, and the actor's folded flag is kept. -/
theorem process_nice_effects (bb : Int) (st : RoundSt) (idx : Nat) (d : Action)
    (hidx : idx < st.players.length)
    (hd : d.action_type = ActionType.check ∨ d.action_type = ActionType.call) :
    ∀ st2, st2 = (process_action bb st idx (validate_action bb st.current_bet (st.pl idx) d)).1 →
      st2.players.length = st.players.length ∧ st2.current_bet = st.current_bet ∧
      st2.current_idx = st.current_idx ∧ st2.last_raiser = st.last_raiser ∧
      st2.acted = st.acted.insert idx ∧
      (∀ i, i ≠ idx → st2.pl i = st.pl i) ∧
      (st2.pl idx).folded = (st.pl idx).folded := by
  intro st2 hst2
  have hfr : ∀ q : Player, ∀ i, i ≠ idx →
      (st.players.set idx q).getD i default = st.players.getD i default :=
    fun q i hi => getD_set_ne st.players idx i q (Ne.symm hi)
  have hself : ∀ q : Player, (st.players.set idx q).getD idx default = q :=
    fun q => getD_set_self st.players idx q hidx
  obtain ⟨ty, amt⟩ := d
  cases ty
  · simp at hd
  · simp at hd
  · simp at hd
  · -- call decision
    subst hst2
    simp only [validate_action]
    by_cases h0 : (st.pl idx).chips = 0
    · simp only [if_pos h0]
      simp only [process_action, if_pos hidx]
      refine ⟨?_, ?_, ?_, ?_, ?_, ?_, ?_⟩ <;>
        first
          | trivial
          | rfl
          | (intro i hi; first | rfl | exact hfr _ i hi)
          | exact Eq.trans (congrArg Player.folded (hself _)) rfl
          | simp
    · simp only [if_neg h0]
      by_cases h1 : st.current_bet - (st.pl idx).current_bet = 0
      · simp only [if_pos h1]
        simp only [process_action, if_pos hidx]
        have hng : ¬ st.current_bet > (st.pl idx).current_bet := by omega
        simp only [if_neg hng]
        refine ⟨?_, ?_, ?_, ?_, ?_, ?_, ?_⟩ <;>
          first
            | trivial
            | rfl
            | (intro i hi; first | rfl | exact hfr _ i hi)
            | exact Eq.trans (congrArg Player.folded (hself _)) rfl
            | simp
      · simp only [if_neg h1]
        by_cases h2 : st.current_bet - (st.pl idx).current_bet > (st.pl idx).chips
        · simp only [if_pos h2]
          simp only [process_action, if_pos hidx]
          have hng : ¬ (st.pl idx).current_bet + (st.pl idx).chips > st.current_bet := by omega
          simp only [if_neg hng]
          refine ⟨?_, ?_, ?_, ?_, ?_, ?_, ?_⟩ <;>
            first
              | trivial
              | rfl
              | (intro i hi; first | rfl | exact hfr _ i hi)
              | exact Eq.trans (congrArg Player.folded (hself _)) rfl
              | simp
        · simp only [if_neg h2]
          simp only [process_action, if_pos hidx]
          refine ⟨?_, ?_, ?_, ?_, ?_, ?_, ?_⟩ <;>
            first
              | trivial
              | rfl
              | (intro i hi; first | rfl | exact hfr _ i hi)
              | exact Eq.trans (congrArg Player.folded (hself _)) rfl
              | simp
  · simp at hd
  · -- check decision
    subst hst2
    simp only [validate_action]
    simp only [process_action, if_pos hidx]
    by_cases hgt : st.current_bet > (st.pl idx).current_bet
    · simp only [if_pos hgt]
      refine ⟨?_, ?_, ?_, ?_, ?_, ?_, ?_⟩ <;>
        first
          | trivial
          | rfl
          | (intro i hi; first | rfl | exact hfr _ i hi)
          | exact Eq.trans (congrArg Player.folded (hself _)) rfl
          | simp
    · simp only [if_neg hgt]
      refine ⟨?_, ?_, ?_, ?_, ?_, ?_, ?_⟩ <;>
        first
          | trivial
          | rfl
          | (intro i hi; first | rfl | exact hfr _ i hi)
          | exact Eq.trans (congrArg Player.folded (hself _)) rfl
          | simp
  · simp at hd
  · simp at hd

/-- Effect of the shared BET/RAISE body: cyclic position and other seats
unchanged; either the seat is inserted into the acted set with
`last_raiser` kept, or the tracking is reset to this seat alone. -/
theorem process_bet_raise_effects (st : RoundSt) (idx : Nat) (ty : ActionType) (amt : Int)
    (hidx : idx < st.players.length) :
    ∀ st2, st2 = (process_bet_raise st idx (st.pl idx) ty amt).1 →
      st2.players.length = st.players.length ∧ st2.current_idx = st.current_idx ∧
      (∀ i, i ≠ idx → st2.pl i = st.pl i) ∧
      (st2.acted = st.acted.insert idx ∧ st2.last_raiser = st.last_raiser ∨ st2.acted = [idx]) := by
  intro st2 hst2
  have hfr : ∀ q : Player, ∀ i, i ≠ idx →
      (st.players.set idx q).getD i default = st.players.getD i default :=
    fun q i hi => getD_set_ne st.players idx i q (Ne.symm hi)
  subst hst2
  unfold process_bet_raise
  dsimp only
  split_ifs with h1 h2
  · exact ⟨by (first | trivial | rfl | simp), by (first | trivial | rfl), by (first | trivial | (intro i hi; (first | rfl | exact hfr _ i hi))), by (first | trivial | exact Or.inr (by (first | trivial | rfl)))⟩
  · exact ⟨by (first | trivial | rfl | simp), by (first | trivial | rfl), by (first | trivial | (intro i hi; (first | rfl | exact hfr _ i hi))), by (first | trivial | exact Or.inl ⟨by (first | trivial | rfl), by (first | trivial | rfl)⟩)⟩
  · exact ⟨by (first | trivial | rfl | simp), by (first | trivial | rfl), by (first | trivial | (intro i hi; (first | rfl | exact hfr _ i hi))), by (first | trivial | exact Or.inr (by (first | trivial | rfl)))⟩

/-- Effect of ANY validated-then-processed genuine decision (not a blind):
cyclic position and other seats untouched, and the acted set either gains
the seat (with `last_raiser` kept) or is reset to this seat alone. -/
theorem process_wild_effects (bb : Int) (st : RoundSt) (idx : Nat) (d : Action)
    (hidx : idx < st.players.length)
    (hd : d.action_type ≠ ActionType.small_blind ∧ d.action_type ≠ ActionType.big_blind) :
    ∀ st2, st2 = (process_action bb st idx (validate_action bb st.current_bet (st.pl idx) d)).1 →
      st2.players.length = st.players.length ∧
      st2.current_idx = st.current_idx ∧
      (∀ i, i ≠ idx → st2.pl i = st.pl i) ∧
      (st2.acted = st.acted.insert idx ∧ st2.last_raiser = st.last_raiser ∨ st2.acted = [idx]) := by
  intro st2 hst2
  have hfr : ∀ q : Player, ∀ i, i ≠ idx →
      (st.players.set idx q).getD i default = st.players.getD i default :=
    fun q i hi => getD_set_ne st.players idx i q (Ne.symm hi)
  obtain ⟨ty, amt⟩ := d
  cases ty
  · exact absurd rfl hd.2
  · exact absurd rfl hd.1
  · -- bet decision
    subst hst2
    simp only [validate_action]
    by_cases hgt : amt > (st.pl idx).chips
    · simp only [if_pos hgt]
      simp only [process_action, if_pos hidx]
      by_cases hnb : (st.pl idx).current_bet + (st.pl idx).chips > st.current_bet
      · simp only [if_pos hnb]
        exact ⟨by (first | trivial | rfl | simp), by (first | trivial | rfl), by (first | trivial | (intro i hi; (first | rfl | exact hfr _ i hi))), by (first | trivial | exact Or.inr (by (first | trivial | rfl)))⟩
      · simp only [if_neg hnb]
        exact ⟨by (first | trivial | rfl | simp), by (first | trivial | rfl), by (first | trivial | (intro i hi; (first | rfl | exact hfr _ i hi))), by (first | trivial | exact Or.inl ⟨by (first | trivial | rfl), by (first | trivial | rfl)⟩)⟩
    · simp only [if_neg hgt]
      simp only [process_action, if_pos hidx]
      exact process_bet_raise_effects st idx ActionType.bet _ hidx _ rfl
  · -- call decision
    have h := process_nice_effects bb st idx ⟨ActionType.call, amt⟩ hidx (Or.inr rfl) st2 hst2
    exact ⟨h.1, h.2.2.1, h.2.2.2.2.2.1, Or.inl ⟨h.2.2.2.2.1, h.2.2.2.1⟩⟩
  · -- raise decision
    subst hst2
    simp only [validate_action]
    by_cases hgt : amt - (st.pl idx).current_bet > (st.pl idx).chips
    · simp only [if_pos hgt]
      simp only [process_action, if_pos hidx]
      by_cases hnb : (st.pl idx).current_bet + (st.pl idx).chips > st.current_bet
      · simp only [if_pos hnb]
        exact ⟨by (first | trivial | rfl | simp), by (first | trivial | rfl), by (first | trivial | (intro i hi; (first | rfl | exact hfr _ i hi))), by (first | trivial | exact Or.inr (by (first | trivial | rfl)))⟩
      · simp only [if_neg hnb]
        exact ⟨by (first | trivial | rfl | simp), by (first | trivial | rfl), by (first | trivial | (intro i hi; (first | rfl | exact hfr _ i hi))), by (first | trivial | exact Or.inl ⟨by (first | trivial | rfl), by (first | trivial | rfl)⟩)⟩
    · simp only [if_neg hgt]
      simp only [process_action, if_pos hidx]
      exact process_bet_raise_effects st idx ActionType.raise _ hidx _ rfl
  · -- check decision
    have h := process_nice_effects bb st idx ⟨ActionType.check, amt⟩ hidx (Or.inl rfl) st2 hst2
    exact ⟨h.1, h.2.2.1, h.2.2.2.2.2.1, Or.inl ⟨h.2.2.2.2.1, h.2.2.2.1⟩⟩
  · -- fold decision
    subst hst2
    simp only [validate_action]
    simp only [process_action, if_pos hidx]
    exact ⟨by (first | trivial | rfl | simp), by (first | trivial | rfl), by (first | trivial | (intro i hi; (first | rfl | exact hfr _ i hi))), by (first | trivial | exact Or.inl ⟨by (first | trivial | rfl), by (first | trivial | rfl)⟩)⟩
  · -- all-in decision
    subst hst2
    simp only [validate_action]
    simp only [process_action, if_pos hidx]
    by_cases hnb : (st.pl idx).current_bet + (st.pl idx).chips > st.current_bet
    · simp only [if_pos hnb]
      exact ⟨by (first | trivial | rfl | simp), by (first | trivial | rfl), by (first | trivial | (intro i hi; (first | rfl | exact hfr _ i hi))), by (first | trivial | exact Or.inr (by (first | trivial | rfl)))⟩
    · simp only [if_neg hnb]
      exact ⟨by (first | trivial | rfl | simp), by (first | trivial | rfl), by (first | trivial | (intro i hi; (first | rfl | exact hfr _ i hi))), by (first | trivial | exact Or.inl ⟨by (first | trivial | rfl), by (first | trivial | rfl)⟩)⟩

/-- One unfolding of the betting loop at positive fuel. -/
theorem betting_loop_succ (bb : Int) (dec : Nat → Action) (start fuel c : Nat) (st : RoundSt) :
    betting_loop bb dec start (fuel + 1) c st =
      if (st.pl st.current_idx).folded = true ∨ (st.pl st.current_idx).chips = 0 then
        betting_loop bb dec start fuel c
          { st with current_idx := (st.current_idx + 1) % st.players.length }
      else
        let a := validate_action bb st.current_bet (st.pl st.current_idx) (dec c)
        let st1 := (process_action bb st st.current_idx a).1
        let st2 := { st1 with current_idx := (st1.current_idx + 1) % st.players.length }
        if all_acted st2 = true then some (st2, c + 1)
        else if st2.last_raiser = none ∧ st2.current_idx = start then some (st2, c + 1)
        else if count_active st2.players ≤ 1 then some (st2, c + 1)
        else betting_loop bb dec start fuel (c + 1) st2 := by
  rw [betting_loop]

/-- The all-check/call loop run: starting anywhere inside the first full
circle with the invariants below, the loop returns and the action count
is exactly the number of round-start-eligible seats. -/
theorem exact_loop (bb : Int) (dec : Nat → Action) (players1 : List Player)
    (start n N : Nat) (hn0 : 0 < n) (hstart : start < n)
    (hdec : ∀ k, (dec k).action_type = ActionType.check ∨ (dec k).action_type = ActionType.call)
    (hnn : ∀ i, 0 ≤ (players1.getD i default).chips)
    (hN : N = cnt n (fun i => eligibleB players1 i)) (hN2 : 2 ≤ N) :
    ∀ fuel t c : Nat, ∀ st : RoundSt, t ≤ n → n - t ≤ fuel →
      st.players.length = n →
      st.current_idx = (start + t) % n →
      st.last_raiser = none →
      (∀ j, j ∈ st.acted ↔ ∃ d, d < t ∧ (start + d) % n = j ∧ eligibleB players1 j = true) →
      (∀ i, i ∉ st.acted → st.pl i = players1.getD i default) →
      (∀ i, (st.pl i).folded = (players1.getD i default).folded) →
      c + cnt (n - t) (fun d => eligibleB players1 ((start + (t + d)) % n)) = N →
      0 < cnt (n - t) (fun d => eligibleB players1 ((start + (t + d)) % n)) →
      ∃ stf, betting_loop bb dec start fuel c st = some (stf, N) := by
  intro fuel
  induction fuel with
  | zero =>
    intro t c st ht hfuel _ _ _ _ _ _ _ hpos
    have htn : t = n := by omega
    subst htn
    simp [Nat.sub_self, cnt] at hpos
  | succ fuel ih =>
    intro t c st ht hfuel hlen hseat hlr hact hfresh hfold hcount hpos
    by_cases htn : t = n
    · subst htn; simp [Nat.sub_self, cnt] at hpos
    have htlt : t < n := by omega
    have hsn : (start + t) % n < n := mod_lt_len n _ hn0
    have hidxlen : st.current_idx < st.players.length := by rw [hseat, hlen]; exact hsn
    have hfresh_seat : (start + t) % n ∉ st.acted := by
      intro hmem
      obtain ⟨d, hd, hds, _⟩ := (hact _).mp hmem
      have := mod_inj n start d t (by omega) htlt hds
      omega
    have hcurpl : st.pl ((start + t) % n) = players1.getD ((start + t) % n) default :=
      hfresh _ hfresh_seat
    have hsplit : cnt (n - t) (fun d => eligibleB players1 ((start + (t + d)) % n))
        = (if eligibleB players1 ((start + t) % n) = true then 1 else 0)
          + cnt (n - t - 1) (fun d => eligibleB players1 ((start + (t + 1 + d)) % n)) := by
      have h1 : n - t = (n - t - 1) + 1 := by omega
      rw [h1]
      have h2 : cnt ((n - t - 1) + 1) (fun d => eligibleB players1 ((start + (t + d)) % n))
          = (if eligibleB players1 ((start + (t + 0)) % n) = true then 1 else 0)
            + cnt (n - t - 1) (fun d => eligibleB players1 ((start + (t + (d + 1))) % n)) := rfl
      rw [h2, Nat.add_zero]
      congr 1
      exact cnt_congr _ _ _ (fun d _ => by rw [show t + (d + 1) = t + 1 + d from by omega])
    rw [hsplit] at hcount hpos
    by_cases hE : eligibleB players1 ((start + t) % n) = true
    · -- the seat acts
      have hone : (if eligibleB players1 ((start + t) % n) = true then 1 else 0) = 1 :=
        if_pos hE
      rw [hone] at hcount hpos
      have hEun := hE
      unfold eligibleB at hEun
      rw [Bool.and_eq_true] at hEun
      obtain ⟨hEf, hEc⟩ := hEun
      have hEfold : (players1.getD ((start + t) % n) default).folded = false := by
        cases hx : (players1.getD ((start + t) % n) default).folded
        · rfl
        · rw [hx] at hEf; exact absurd hEf (by simp)
      have hEchips : 0 < (players1.getD ((start + t) % n) default).chips :=
        of_decide_eq_true hEc
      have hskip : ¬((st.pl st.current_idx).folded = true ∨ (st.pl st.current_idx).chips = 0) := by
        rw [hseat, hcurpl]
        rintro (h | h)
        · rw [hEfold] at h; exact Bool.false_ne_true h
        · omega
      let st1 : RoundSt := (process_action bb st st.current_idx
        (validate_action bb st.current_bet (st.pl st.current_idx) (dec c))).1
      let st2x : RoundSt := { st1 with current_idx := (st1.current_idx + 1) % st.players.length }
      obtain ⟨hlen1, hcb1, hci1, hlr1, hac1, hfr1, hfo1⟩ :=
        process_nice_effects bb st st.current_idx (dec c) hidxlen (hdec c) st1 rfl
      have hstep : betting_loop bb dec start (fuel + 1) c st
          = (if all_acted st2x = true then some (st2x, c + 1)
             else if st2x.last_raiser = none ∧ st2x.current_idx = start then some (st2x, c + 1)
             else if count_active st2x.players ≤ 1 then some (st2x, c + 1)
             else betting_loop bb dec start fuel (c + 1) st2x) := by
        rw [betting_loop_succ, if_neg hskip]
      have hlen2 : st2x.players.length = n := by
        show st1.players.length = n
        rw [hlen1, hlen]
      have hpl2 : ∀ i, st2x.pl i = st1.pl i := fun i => rfl
      have hidx2 : st2x.current_idx = (start + (t + 1)) % n := by
        show (st1.current_idx + 1) % st.players.length = _
        rw [hci1, hlen, hseat, mod_step]
      have hlr2 : st2x.last_raiser = none := by
        show st1.last_raiser = none
        rw [hlr1, hlr]
      have hac2 : st2x.acted = st.acted.insert ((start + t) % n) := by
        show st1.acted = _
        rw [hac1, hseat]
      have hfr2 : ∀ i, i ≠ (start + t) % n → st2x.pl i = st.pl i := by
        intro i hi
        rw [hpl2]
        apply hfr1
        rw [hseat]
        exact hi
      have hfo2 : ∀ i, (st2x.pl i).folded = (players1.getD i default).folded := by
        intro i
        by_cases hi : i = (start + t) % n
        · subst hi
          rw [hpl2, ← hseat, hfo1, hfold]
        · rw [hfr2 i hi, hfold]
      have hact2 : ∀ j, j ∈ st2x.acted ↔
          ∃ d, d < t + 1 ∧ (start + d) % n = j ∧ eligibleB players1 j = true := by
        intro j
        rw [hac2, List.mem_insert_iff]
        constructor
        · rintro (rfl | hj)
          · exact ⟨t, by omega, rfl, hE⟩
          · obtain ⟨d, hd, hds, hEj⟩ := (hact j).mp hj
            exact ⟨d, by omega, hds, hEj⟩
        · rintro ⟨d, hd, hds, hEj⟩
          by_cases hdt : d = t
          · subst hdt
            exact Or.inl hds.symm
          · exact Or.inr ((hact j).mpr ⟨d, by omega, hds, hEj⟩)
      have hfresh2 : ∀ i, i ∉ st2x.acted → st2x.pl i = players1.getD i default := by
        intro i hi
        rw [hac2, List.mem_insert_iff] at hi
        push_neg at hi
        rw [hfr2 i hi.1]
        exact hfresh i hi.2
      by_cases hR0 : cnt (n - t - 1) (fun d => eligibleB players1 ((start + (t + 1 + d)) % n)) = 0
      · -- last eligible seat in the window: the all-acted check fires
        have hall : all_acted st2x = true := by
          unfold all_acted
          apply List.all_eq_true.mpr
          intro i hi
          unfold active_non_allin at hi
          rw [List.mem_filter, List.mem_range] at hi
          obtain ⟨hiltn, hpred⟩ := hi
          rw [hlen2] at hiltn
          apply decide_eq_true
          by_contra hnotmem
          have hne : i ≠ (start + t) % n := by
            intro h
            apply hnotmem
            rw [hac2, h]
            exact List.mem_insert_self _ _
          have hnotold : i ∉ st.acted := fun h =>
            hnotmem (by rw [hac2]; exact List.mem_insert_of_mem h)
          have hpli : st2x.pl i = players1.getD i default := hfresh2 i hnotmem
          have hEi : eligibleB players1 i = true := by
            unfold eligibleB
            rw [← hpli]
            exact hpred
          obtain ⟨d, hdn, hdi⟩ := mod_surj n start i hn0 hiltn
          rcases Nat.lt_trichotomy d t with hdt | hdt | hdt
          · exact hnotold ((hact i).mpr ⟨d, hdt, hdi, hEi⟩)
          · subst hdt
            exact hne hdi.symm
          · have hRpos : 0 < cnt (n - t - 1)
                (fun e => eligibleB players1 ((start + (t + 1 + e)) % n)) := by
              apply cnt_pos _ _ (d - (t + 1)) (by omega)
              rw [show t + 1 + (d - (t + 1)) = d from by omega, hdi]
              exact hEi
            omega
        refine ⟨st2x, ?_⟩
        rw [hstep, if_pos hall]
        have hcN : c + 1 = N := by omega
        rw [hcN]
      · -- more eligible seats remain: all three checks fail, recurse
        have hR1 : 0 < cnt (n - t - 1)
            (fun d => eligibleB players1 ((start + (t + 1 + d)) % n)) :=
          Nat.pos_of_ne_zero hR0
        obtain ⟨d0, hd0, hEd0⟩ := cnt_exists _ _ hR1
        have hjn : (start + (t + 1 + d0)) % n < n := mod_lt_len n _ hn0
        have hjne : (start + (t + 1 + d0)) % n ≠ (start + t) % n := by
          intro h
          have := mod_inj n start (t + 1 + d0) t (by omega) htlt h
          omega
        have hjnold : (start + (t + 1 + d0)) % n ∉ st.acted := by
          intro hmem
          obtain ⟨d, hd, hds, _⟩ := (hact _).mp hmem
          have := mod_inj n start d (t + 1 + d0) (by omega) (by omega) hds
          omega
        have hjfresh2 : (start + (t + 1 + d0)) % n ∉ st2x.acted := by
          rw [hac2, List.mem_insert_iff]
          rintro (h | h)
          · exact hjne h
          · exact hjnold h
        have hplj : st2x.pl ((start + (t + 1 + d0)) % n)
            = players1.getD ((start + (t + 1 + d0)) % n) default := hfresh2 _ hjfresh2
        have hEd0' : eligibleB players1 ((start + (t + 1 + d0)) % n) = true := hEd0
        have hjactive : (start + (t + 1 + d0)) % n ∈ active_non_allin st2x := by
          unfold active_non_allin
          rw [List.mem_filter, List.mem_range]
          constructor
          · rw [hlen2]
            exact hjn
          · unfold eligibleB at hEd0'
            rw [hplj]
            exact hEd0'
        have hnall : ¬(all_acted st2x = true) := by
          intro hall
          unfold all_acted at hall
          have h2 := List.all_eq_true.mp hall _ hjactive
          exact hjfresh2 (of_decide_eq_true h2)
        have hne2 : st2x.current_idx ≠ start := by
          rw [hidx2]
          exact mod_ne_start n start (t + 1) hstart (by omega) (by omega)
        have hca : ¬(count_active st2x.players ≤ 1) := by
          have h1 : count_active st2x.players = cnt n (fun i => !(st2x.pl i).folded) := by
            unfold count_active
            rw [← List.countP_eq_length_filter, countP_eq_cnt, hlen2]
            rfl
          have h2 : cnt n (fun i => !(st2x.pl i).folded)
              = cnt n (fun i => !(players1.getD i default).folded) :=
            cnt_congr _ _ _ (fun i _ => by rw [hfo2 i])
          have h3 : cnt n (fun i => eligibleB players1 i)
              ≤ cnt n (fun i => !(players1.getD i default).folded) := by
            apply cnt_mono
            intro i _ hEi
            unfold eligibleB at hEi
            rw [Bool.and_eq_true] at hEi
            exact hEi.1
          omega
        have hcnt2 : cnt (n - (t + 1))
            (fun d => eligibleB players1 ((start + (t + 1 + d)) % n))
            = cnt (n - t - 1) (fun d => eligibleB players1 ((start + (t + 1 + d)) % n)) := rfl
        obtain ⟨stf, hrec⟩ := ih (t + 1) (c + 1) st2x (by omega) (by omega) hlen2 hidx2 hlr2
          hact2 hfresh2 hfo2 (by rw [hcnt2]; omega) (by rw [hcnt2]; exact hR1)
        refine ⟨stf, ?_⟩
        rw [hstep, if_neg hnall, if_neg (fun h => hne2 h.2), if_neg hca]
        exact hrec
    · -- the seat is skipped
      have hEf : eligibleB players1 ((start + t) % n) = false := by
        cases hx : eligibleB players1 ((start + t) % n)
        · rfl
        · exact absurd hx hE
      have hzero : (if eligibleB players1 ((start + t) % n) = true then 1 else 0) = 0 :=
        if_neg (by rw [hEf]; exact Bool.false_ne_true)
      rw [hzero] at hcount hpos
      have hskip : (st.pl st.current_idx).folded = true ∨ (st.pl st.current_idx).chips = 0 := by
        rw [hseat, hcurpl]
        unfold eligibleB at hEf
        by_cases hf : (players1.getD ((start + t) % n) default).folded = true
        · exact Or.inl hf
        · right
          have hf' : (players1.getD ((start + t) % n) default).folded = false := by
            cases hx : (players1.getD ((start + t) % n) default).folded
            · rfl
            · exact absurd hx hf
          rw [hf'] at hEf
          simp only [Bool.not_false, Bool.true_and] at hEf
          have hnotpos : ¬ 0 < (players1.getD ((start + t) % n) default).chips :=
            of_decide_eq_false hEf
          have := hnn ((start + t) % n)
          omega
      let stsk : RoundSt := { st with current_idx := (st.current_idx + 1) % st.players.length }
      have hlensk : stsk.players.length = n := hlen
      have hplsk : ∀ i, stsk.pl i = st.pl i := fun i => rfl
      have hidxsk : stsk.current_idx = (start + (t + 1)) % n := by
        show (st.current_idx + 1) % st.players.length = _
        rw [hseat, hlen, mod_step]
      have hactsk : ∀ j, j ∈ stsk.acted ↔
          ∃ d, d < t + 1 ∧ (start + d) % n = j ∧ eligibleB players1 j = true := by
        intro j
        show j ∈ st.acted ↔ _
        rw [hact j]
        constructor
        · rintro ⟨d, hd, hds, hEj⟩
          exact ⟨d, by omega, hds, hEj⟩
        · rintro ⟨d, hd, hds, hEj⟩
          by_cases hdt : d = t
          · subst hdt
            rw [← hds] at hEj
            rw [hEj] at hEf
            exact absurd hEf (by simp)
          · exact ⟨d, by omega, hds, hEj⟩
      obtain ⟨stf, hrec⟩ := ih (t + 1) c stsk (by omega) (by omega) hlensk hidxsk hlr hactsk
        hfresh hfold (by rw [show n - (t + 1) = n - t - 1 from rfl]; omega)
        (by rw [show n - (t + 1) = n - t - 1 from rfl]; omega)
      refine ⟨stf, ?_⟩
      rw [betting_loop_succ, if_pos hskip]
      exact hrec

/-- Effect of a validated-then-processed CHECK, CALL or FOLD decision:
the seat is inserted into the acted set; position, list length and the
other seats are untouched. -/
theorem process_nice3_effects (bb : Int) (st : RoundSt) (idx : Nat) (d : Action)
    (hidx : idx < st.players.length) (hd : nice3 d) :
    ∀ st2, st2 = (process_action bb st idx (validate_action bb st.current_bet (st.pl idx) d)).1 →
      st2.players.length = st.players.length ∧ st2.current_idx = st.current_idx ∧
      st2.acted = st.acted.insert idx ∧ (∀ i, i ≠ idx → st2.pl i = st.pl i) := by
  intro st2 hst2
  rcases hd with h | h | h
  · have hh := process_nice_effects bb st idx d hidx (Or.inl h) st2 hst2
    exact ⟨hh.1, hh.2.2.1, hh.2.2.2.2.1, hh.2.2.2.2.2.1⟩
  · have hh := process_nice_effects bb st idx d hidx (Or.inr h) st2 hst2
    exact ⟨hh.1, hh.2.2.1, hh.2.2.2.2.1, hh.2.2.2.2.2.1⟩
  · -- fold decision
    have hfr : ∀ q : Player, ∀ i, i ≠ idx →
        (st.players.set idx q).getD i default = st.players.getD i default :=
      fun q i hi => getD_set_ne st.players idx i q (Ne.symm hi)
    subst hst2
    obtain ⟨ty, amt⟩ := d
    cases ty
    · simp at h
    · simp at h
    · simp at h
    · simp at h
    · simp at h
    · simp at h
    · simp only [validate_action]
      simp only [process_action, if_pos hidx]
      exact ⟨by (first | trivial | rfl | simp), by (first | trivial | rfl),
        by (first | trivial | rfl),
        by (first | trivial | (intro i hi; (first | rfl | exact hfr _ i hi)))⟩
    · simp at h

/-- The no-reset loop run: with all decisions from the current count on
being CHECK, CALL or FOLD, the loop returns, and the number of further
actions is at most the number of fresh would-be actors in the remaining
window (invariants: acted seats inside the window are skippable, active
fresh seats lie inside the window, and some active fresh seat exists). -/
theorem bound_loop (bb : Int) (dec : Nat → Action) (start n : Nat) (hn0 : 0 < n) :
    ∀ fuel L c : Nat, ∀ st : RoundSt,
      L ≤ n → L ≤ fuel →
      st.players.length = n →
      st.current_idx < n →
      (∀ k, c ≤ k → nice3 (dec k)) →
      (∀ d, d + 1 < L → (st.current_idx + d) % n ∈ st.acted →
        actsPredB st ((st.current_idx + d) % n) = false) →
      (∀ i, i < n → (st.pl i).folded = false → 0 < (st.pl i).chips → i ∉ st.acted →
        ∃ d, d < L ∧ (st.current_idx + d) % n = i) →
      (∃ i, i < n ∧ (st.pl i).folded = false ∧ 0 < (st.pl i).chips ∧ i ∉ st.acted) →
      ∃ stf m, betting_loop bb dec start fuel c st = some (stf, m) ∧
        m ≤ c + cnt L (fun d => predFresh st ((st.current_idx + d) % n)) := by
  intro fuel
  induction fuel with
  | zero =>
    intro L c st hLn hLf hlen hcur hdecn hV hcov hP
    obtain ⟨i, hin, hif, hic, hia⟩ := hP
    obtain ⟨d, hd, _⟩ := hcov i hin hif hic hia
    omega
  | succ fuel ih =>
    intro L c st hLn hLf hlen hcur hdecn hV hcov hP
    by_cases hL0 : L = 0
    · subst hL0
      obtain ⟨i, hin, hif, hic, hia⟩ := hP
      obtain ⟨d, hd, _⟩ := hcov i hin hif hic hia
      omega
    obtain ⟨K, rfl⟩ : ∃ K, L = K + 1 := ⟨L - 1, by omega⟩
    have hs0 : (st.current_idx + 0) % n = st.current_idx := by
      rw [Nat.add_zero, Nat.mod_eq_of_lt hcur]
    have hw : ∀ d, ((st.current_idx + 1) % n + d) % n = (st.current_idx + (d + 1)) % n := by
      intro d
      rw [Nat.mod_add_mod]
      congr 1
      omega
    have hsplitF : cnt (K + 1) (fun d => predFresh st ((st.current_idx + d) % n))
        = (if predFresh st ((st.current_idx + 0) % n) = true then 1 else 0)
          + cnt K (fun d => predFresh st ((st.current_idx + (d + 1)) % n)) := rfl
    by_cases hskipc : (st.pl st.current_idx).folded = true ∨ (st.pl st.current_idx).chips = 0
    · -- the seat is skipped
      have hacts0 : actsPredB st st.current_idx = false := by
        unfold actsPredB
        rcases hskipc with h | h
        · rw [h]
          rfl
        · rw [h]
          simp
      have hhead0 : predFresh st ((st.current_idx + 0) % n) = false := by
        rw [hs0]
        unfold predFresh
        rw [hacts0]
        rfl
      let stsk : RoundSt := { st with current_idx := (st.current_idx + 1) % st.players.length }
      have hidxsk : stsk.current_idx = (st.current_idx + 1) % n := by
        show (st.current_idx + 1) % st.players.length = _
        rw [hlen]
      have hcursk : stsk.current_idx < n := by
        rw [hidxsk]
        exact mod_lt_len n _ hn0
      have hVsk : ∀ d, d + 1 < K → (stsk.current_idx + d) % n ∈ stsk.acted →
          actsPredB stsk ((stsk.current_idx + d) % n) = false := by
        intro d hdK hmem
        have hidxd : (stsk.current_idx + d) % n = (st.current_idx + (d + 1)) % n := by
          rw [hidxsk]
          exact hw d
        rw [hidxd] at hmem ⊢
        exact hV (d + 1) (by omega) hmem
      have hcovsk : ∀ i, i < n → (stsk.pl i).folded = false → 0 < (stsk.pl i).chips →
          i ∉ stsk.acted → ∃ d, d < K ∧ (stsk.current_idx + d) % n = i := by
        intro i hin hif hic hia
        have hif' : (st.pl i).folded = false := hif
        have hic' : 0 < (st.pl i).chips := hic
        have hia' : i ∉ st.acted := hia
        obtain ⟨d, hdL, hdi⟩ := hcov i hin hif' hic' hia'
        have hd0 : d ≠ 0 := by
          intro h0
          subst h0
          rw [hs0] at hdi
          rcases hskipc with h | h
          · rw [← hdi] at hif'
            rw [hif'] at h
            exact Bool.false_ne_true h
          · rw [← hdi] at hic'
            omega
        refine ⟨d - 1, by omega, ?_⟩
        have hidxd : (stsk.current_idx + (d - 1)) % n = (st.current_idx + ((d - 1) + 1)) % n := by
          rw [hidxsk]
          exact hw (d - 1)
        rw [hidxd, show (d - 1) + 1 = d from by omega]
        exact hdi
      have hPsk : ∃ i, i < n ∧ (stsk.pl i).folded = false ∧ 0 < (stsk.pl i).chips ∧
          i ∉ stsk.acted := hP
      obtain ⟨stf, m, hsome, hm⟩ := ih K c stsk (by omega) (by omega) hlen hcursk
        (fun k hk => hdecn k hk) hVsk hcovsk hPsk
      refine ⟨stf, m, ?_, ?_⟩
      · rw [betting_loop_succ, if_pos hskipc]
        exact hsome
      · have hcongr : cnt K (fun d => predFresh stsk ((stsk.current_idx + d) % n))
            = cnt K (fun d => predFresh st ((st.current_idx + (d + 1)) % n)) := by
          apply cnt_congr
          intro d _
          have hidxd : (stsk.current_idx + d) % n = (st.current_idx + (d + 1)) % n := by
            rw [hidxsk]
            exact hw d
          rw [hidxd]
          rfl
        have hite : (if predFresh st ((st.current_idx + 0) % n) = true then 1 else 0) = 0 :=
          if_neg (by rw [hhead0]; exact Bool.false_ne_true)
        rw [hsplitF, hite]
        rw [hcongr] at hm
        omega
    · -- the seat acts
      have hskipc' := hskipc
      push_neg at hskipc'
      obtain ⟨hnf, hnc⟩ := hskipc'
      have hfold0 : (st.pl st.current_idx).folded = false := by
        cases hx : (st.pl st.current_idx).folded
        · rfl
        · exact absurd hx hnf
      have hacts : actsPredB st st.current_idx = true := by
        unfold actsPredB
        rw [hfold0]
        simp [hnc]
      have hidxlen : st.current_idx < st.players.length := by
        rw [hlen]
        exact hcur
      have hsfresh : st.current_idx ∉ st.acted := by
        intro hsa
        by_cases hK0 : K = 0
        · subst hK0
          obtain ⟨i, hin, hif, hic, hia⟩ := hP
          obtain ⟨d, hdL, hdi⟩ := hcov i hin hif hic hia
          have hd0 : d = 0 := by omega
          subst hd0
          rw [hs0] at hdi
          rw [hdi] at hsa
          exact hia hsa
        · have hVf := hV 0 (by omega)
          rw [hs0] at hVf
          rw [hVf hsa] at hacts
          exact Bool.false_ne_true hacts
      have hhead1 : predFresh st ((st.current_idx + 0) % n) = true := by
        rw [hs0]
        unfold predFresh
        rw [hacts]
        simp [hsfresh]
      have hbud : 0 < cnt (K + 1) (fun d => predFresh st ((st.current_idx + d) % n)) :=
        cnt_pos _ _ 0 (by omega) hhead1
      have hn3 : nice3 (dec c) := hdecn c (Nat.le_refl c)
      let st1 : RoundSt := (process_action bb st st.current_idx
        (validate_action bb st.current_bet (st.pl st.current_idx) (dec c))).1
      let st2x : RoundSt := { st1 with current_idx := (st1.current_idx + 1) % st.players.length }
      obtain ⟨hlen1, hci1, hac1, hfr1⟩ :=
        process_nice3_effects bb st st.current_idx (dec c) hidxlen hn3 st1 rfl
      have hstep : betting_loop bb dec start (fuel + 1) c st
          = (if all_acted st2x = true then some (st2x, c + 1)
             else if st2x.last_raiser = none ∧ st2x.current_idx = start then some (st2x, c + 1)
             else if count_active st2x.players ≤ 1 then some (st2x, c + 1)
             else betting_loop bb dec start fuel (c + 1) st2x) := by
        rw [betting_loop_succ, if_neg hskipc]
      have hlen2 : st2x.players.length = n := by
        show st1.players.length = n
        rw [hlen1, hlen]
      have hpl2 : ∀ i, st2x.pl i = st1.pl i := fun i => rfl
      have hidx2 : st2x.current_idx = (st.current_idx + 1) % n := by
        show (st1.current_idx + 1) % st.players.length = _
        rw [hci1, hlen]
      have hcur2 : st2x.current_idx < n := by
        rw [hidx2]
        exact mod_lt_len n _ hn0
      have hac2 : st2x.acted = st.acted.insert st.current_idx := hac1
      have hfr2 : ∀ i, i ≠ st.current_idx → st2x.pl i = st.pl i := by
        intro i hi
        rw [hpl2]
        exact hfr1 i hi
      have hpfeq : ∀ i, i ≠ st.current_idx → predFresh st2x i = predFresh st i := by
        intro i hne
        have hmemiff : i ∈ st2x.acted ↔ i ∈ st.acted := by
          rw [hac2, List.mem_insert_iff]
          constructor
          · rintro (h | h)
            · exact absurd h hne
            · exact h
          · exact fun h => Or.inr h
        unfold predFresh actsPredB
        rw [hfr2 i hne, decide_eq_decide.mpr hmemiff]
      by_cases hc1 : all_acted st2x = true
      · exact ⟨st2x, c + 1, by rw [hstep, if_pos hc1], by omega⟩
      by_cases hc2 : st2x.last_raiser = none ∧ st2x.current_idx = start
      · exact ⟨st2x, c + 1, by rw [hstep, if_neg hc1, if_pos hc2], by omega⟩
      by_cases hc3 : count_active st2x.players ≤ 1
      · exact ⟨st2x, c + 1, by rw [hstep, if_neg hc1, if_neg hc2, if_pos hc3], by omega⟩
      have hex : ∃ i, i ∈ active_non_allin st2x ∧ i ∉ st2x.acted := by
        by_contra hno
        push_neg at hno
        apply hc1
        unfold all_acted
        apply List.all_eq_true.mpr
        intro i hi
        exact decide_eq_true (hno i hi)
      obtain ⟨i0, hi0mem, hi0na⟩ := hex
      unfold active_non_allin at hi0mem
      rw [List.mem_filter, List.mem_range] at hi0mem
      obtain ⟨hi0lt, hi0pred⟩ := hi0mem
      rw [hlen2] at hi0lt
      rw [Bool.and_eq_true] at hi0pred
      obtain ⟨hi0f, hi0c⟩ := hi0pred
      have hi0fold : (st2x.pl i0).folded = false := by
        cases hx : (st2x.pl i0).folded
        · rfl
        · rw [hx] at hi0f
          exact absurd hi0f (by simp)
      have hi0chips : 0 < (st2x.pl i0).chips := of_decide_eq_true hi0c
      have hV2 : ∀ d, d + 1 < K → (st2x.current_idx + d) % n ∈ st2x.acted →
          actsPredB st2x ((st2x.current_idx + d) % n) = false := by
        intro d hdK hmem
        have hidxd : (st2x.current_idx + d) % n = (st.current_idx + (d + 1)) % n := by
          rw [hidx2]
          exact hw d
        have hne : (st.current_idx + (d + 1)) % n ≠ st.current_idx :=
          mod_ne_start n st.current_idx (d + 1) hcur (by omega) (by omega)
        rw [hidxd] at hmem ⊢
        rw [hac2, List.mem_insert_iff] at hmem
        rcases hmem with h | h
        · exact absurd h hne
        · unfold actsPredB
          rw [hfr2 _ hne]
          exact hV (d + 1) (by omega) h
      have hcov2 : ∀ i, i < n → (st2x.pl i).folded = false → 0 < (st2x.pl i).chips →
          i ∉ st2x.acted → ∃ d, d < K ∧ (st2x.current_idx + d) % n = i := by
        intro i hin hif hic hia
        have hne : i ≠ st.current_idx := by
          intro h
          apply hia
          rw [hac2, h]
          exact List.mem_insert_self _ _
        have hia1 : i ∉ st.acted := by
          intro h
          exact hia (by rw [hac2]; exact List.mem_insert_of_mem h)
        rw [hfr2 i hne] at hif hic
        obtain ⟨d, hdL, hdi⟩ := hcov i hin hif hic hia1
        have hd0 : d ≠ 0 := by
          intro h0
          subst h0
          rw [hs0] at hdi
          exact hne hdi.symm
        refine ⟨d - 1, by omega, ?_⟩
        have hidxd : (st2x.current_idx + (d - 1)) % n = (st.current_idx + ((d - 1) + 1)) % n := by
          rw [hidx2]
          exact hw (d - 1)
        rw [hidxd, show (d - 1) + 1 = d from by omega]
        exact hdi
      have hP2 : ∃ i, i < n ∧ (st2x.pl i).folded = false ∧ 0 < (st2x.pl i).chips ∧
          i ∉ st2x.acted := ⟨i0, hi0lt, hi0fold, hi0chips, hi0na⟩
      obtain ⟨stf, m, hsome, hm⟩ := ih K (c + 1) st2x (by omega) (by omega) hlen2 hcur2
        (fun k hk => hdecn k (by omega)) hV2 hcov2 hP2
      refine ⟨stf, m, ?_, ?_⟩
      · rw [hstep, if_neg hc1, if_neg hc2, if_neg hc3]
        exact hsome
      · have hcongr : cnt K (fun d => predFresh st2x ((st2x.current_idx + d) % n))
            = cnt K (fun d => predFresh st ((st.current_idx + (d + 1)) % n)) := by
          apply cnt_congr
          intro d hd
          have hidxd : (st2x.current_idx + d) % n = (st.current_idx + (d + 1)) % n := by
            rw [hidx2]
            exact hw d
          rw [hidxd]
          exact hpfeq _ (mod_ne_start n st.current_idx (d + 1) hcur (by omega) (by omega))
        have hite : (if predFresh st ((st.current_idx + 0) % n) = true then 1 else 0) = 1 :=
          if_pos hhead1
        rw [hsplitF, hite]
        rw [hcongr] at hm
        omega

/-- The at-most-one-raise loop run: all decisions are CHECK/CALL/FOLD
except possibly the one consumed at stream index `k0` (any genuine
action).  The loop returns, and the number of actions is bounded by the
fresh actors of the current window plus a reserve of `N - 1` for the
acted-set reset a raise performs (`N` counts the round-start-eligible
seats; the invariant `hE` says every seat that would still act was
eligible at round start). -/
theorem one_wild_loop (bb : Int) (dec : Nat → Action) (start n N k0 : Nat)
    (players1 : List Player) (hn0 : 0 < n)
    (hN : N = cnt n (fun i => eligibleB players1 i))
    (hwild : type6 (dec k0))
    (hnice : ∀ k, k ≠ k0 → nice3 (dec k)) :
    ∀ fuel L c : Nat, ∀ st : RoundSt,
      L ≤ n → L + n ≤ fuel → c ≤ k0 →
      st.players.length = n →
      st.current_idx < n →
      (∀ i, actsPredB st i = true → eligibleB players1 i = true) →
      (∀ d, d + 1 < L → (st.current_idx + d) % n ∈ st.acted →
        actsPredB st ((st.current_idx + d) % n) = false) →
      (∀ i, i < n → (st.pl i).folded = false → 0 < (st.pl i).chips → i ∉ st.acted →
        ∃ d, d < L ∧ (st.current_idx + d) % n = i) →
      (∃ i, i < n ∧ (st.pl i).folded = false ∧ 0 < (st.pl i).chips ∧ i ∉ st.acted) →
      ∃ stf m, betting_loop bb dec start fuel c st = some (stf, m) ∧
        m ≤ c + cnt L (fun d => predFresh st ((st.current_idx + d) % n)) + (N - 1) := by
  intro fuel
  induction fuel with
  | zero =>
    intro L c st hLn hLf hck0 hlen hcur hE hV hcov hP
    omega
  | succ fuel ih =>
    intro L c st hLn hLf hck0 hlen hcur hE hV hcov hP
    by_cases hL0 : L = 0
    · subst hL0
      obtain ⟨i, hin, hif, hic, hia⟩ := hP
      obtain ⟨d, hd, _⟩ := hcov i hin hif hic hia
      omega
    obtain ⟨K, rfl⟩ : ∃ K, L = K + 1 := ⟨L - 1, by omega⟩
    have hs0 : (st.current_idx + 0) % n = st.current_idx := by
      rw [Nat.add_zero, Nat.mod_eq_of_lt hcur]
    have hw : ∀ d, ((st.current_idx + 1) % n + d) % n = (st.current_idx + (d + 1)) % n := by
      intro d
      rw [Nat.mod_add_mod]
      congr 1
      omega
    have hsplitF : cnt (K + 1) (fun d => predFresh st ((st.current_idx + d) % n))
        = (if predFresh st ((st.current_idx + 0) % n) = true then 1 else 0)
          + cnt K (fun d => predFresh st ((st.current_idx + (d + 1)) % n)) := rfl
    by_cases hskipc : (st.pl st.current_idx).folded = true ∨ (st.pl st.current_idx).chips = 0
    · -- the seat is skipped
      have hhead0 : predFresh st ((st.current_idx + 0) % n) = false := by
        rw [hs0]
        unfold predFresh actsPredB
        rcases hskipc with h | h
        · rw [h]
          rfl
        · rw [h]
          simp
      let stsk : RoundSt := { st with current_idx := (st.current_idx + 1) % st.players.length }
      have hidxsk : stsk.current_idx = (st.current_idx + 1) % n := by
        show (st.current_idx + 1) % st.players.length = _
        rw [hlen]
      have hcursk : stsk.current_idx < n := by
        rw [hidxsk]
        exact mod_lt_len n _ hn0
      have hVsk : ∀ d, d + 1 < K → (stsk.current_idx + d) % n ∈ stsk.acted →
          actsPredB stsk ((stsk.current_idx + d) % n) = false := by
        intro d hdK hmem
        have hidxd : (stsk.current_idx + d) % n = (st.current_idx + (d + 1)) % n := by
          rw [hidxsk]
          exact hw d
        rw [hidxd] at hmem ⊢
        exact hV (d + 1) (by omega) hmem
      have hcovsk : ∀ i, i < n → (stsk.pl i).folded = false → 0 < (stsk.pl i).chips →
          i ∉ stsk.acted → ∃ d, d < K ∧ (stsk.current_idx + d) % n = i := by
        intro i hin hif hic hia
        have hif' : (st.pl i).folded = false := hif
        have hic' : 0 < (st.pl i).chips := hic
        have hia' : i ∉ st.acted := hia
        obtain ⟨d, hdL, hdi⟩ := hcov i hin hif' hic' hia'
        have hd0 : d ≠ 0 := by
          intro h0
          subst h0
          rw [hs0] at hdi
          rcases hskipc with h | h
          · rw [← hdi] at hif'
            rw [hif'] at h
            exact Bool.false_ne_true h
          · rw [← hdi] at hic'
            omega
        refine ⟨d - 1, by omega, ?_⟩
        have hidxd : (stsk.current_idx + (d - 1)) % n = (st.current_idx + ((d - 1) + 1)) % n := by
          rw [hidxsk]
          exact hw (d - 1)
        rw [hidxd, show (d - 1) + 1 = d from by omega]
        exact hdi
      have hPsk : ∃ i, i < n ∧ (stsk.pl i).folded = false ∧ 0 < (stsk.pl i).chips ∧
          i ∉ stsk.acted := hP
      have hEsk : ∀ i, actsPredB stsk i = true → eligibleB players1 i = true := hE
      obtain ⟨stf, m, hsome, hm⟩ := ih K c stsk (by omega) (by omega) hck0 hlen hcursk
        hEsk hVsk hcovsk hPsk
      refine ⟨stf, m, ?_, ?_⟩
      · rw [betting_loop_succ, if_pos hskipc]
        exact hsome
      · have hcongr : cnt K (fun d => predFresh stsk ((stsk.current_idx + d) % n))
            = cnt K (fun d => predFresh st ((st.current_idx + (d + 1)) % n)) := by
          apply cnt_congr
          intro d _
          have hidxd : (stsk.current_idx + d) % n = (st.current_idx + (d + 1)) % n := by
            rw [hidxsk]
            exact hw d
          rw [hidxd]
          rfl
        have hite : (if predFresh st ((st.current_idx + 0) % n) = true then 1 else 0) = 0 :=
          if_neg (by rw [hhead0]; exact Bool.false_ne_true)
        rw [hsplitF, hite]
        rw [hcongr] at hm
        omega
    · -- the seat acts
      have hskipc' := hskipc
      push_neg at hskipc'
      obtain ⟨hnf, hnc⟩ := hskipc'
      have hfold0 : (st.pl st.current_idx).folded = false := by
        cases hx : (st.pl st.current_idx).folded
        · rfl
        · exact absurd hx hnf
      have hacts : actsPredB st st.current_idx = true := by
        unfold actsPredB
        rw [hfold0]
        simp [hnc]
      have hidxlen : st.current_idx < st.players.length := by
        rw [hlen]
        exact hcur
      have hsfresh : st.current_idx ∉ st.acted := by
        intro hsa
        by_cases hK0 : K = 0
        · subst hK0
          obtain ⟨i, hin, hif, hic, hia⟩ := hP
          obtain ⟨d, hdL, hdi⟩ := hcov i hin hif hic hia
          have hd0 : d = 0 := by omega
          subst hd0
          rw [hs0] at hdi
          rw [hdi] at hsa
          exact hia hsa
        · have hVf := hV 0 (by omega)
          rw [hs0] at hVf
          rw [hVf hsa] at hacts
          exact Bool.false_ne_true hacts
      have hhead1 : predFresh st ((st.current_idx + 0) % n) = true := by
        rw [hs0]
        unfold predFresh
        rw [hacts]
        simp [hsfresh]
      have hbud : 0 < cnt (K + 1) (fun d => predFresh st ((st.current_idx + d) % n)) :=
        cnt_pos _ _ 0 (by omega) hhead1
      let st1 : RoundSt := (process_action bb st st.current_idx
        (validate_action bb st.current_bet (st.pl st.current_idx) (dec c))).1
      let st2x : RoundSt := { st1 with current_idx := (st1.current_idx + 1) % st.players.length }
      have hstep : betting_loop bb dec start (fuel + 1) c st
          = (if all_acted st2x = true then some (st2x, c + 1)
             else if st2x.last_raiser = none ∧ st2x.current_idx = start then some (st2x, c + 1)
             else if count_active st2x.players ≤ 1 then some (st2x, c + 1)
             else betting_loop bb dec start fuel (c + 1) st2x) := by
        rw [betting_loop_succ, if_neg hskipc]
      -- frame facts valid for both a nice and a wild decision
      obtain ⟨hlen1, hci1, hfr1, hdisj⟩ :
          st1.players.length = st.players.length ∧ st1.current_idx = st.current_idx ∧
          (∀ i, i ≠ st.current_idx → st1.pl i = st.pl i) ∧
          (st1.acted = st.acted.insert st.current_idx ∨
            c = k0 ∧ st1.acted = [st.current_idx]) := by
        by_cases hck : c = k0
        · have hw6 : type6 (dec c) := by rw [hck]; exact hwild
          have hh := process_wild_effects bb st st.current_idx (dec c) hidxlen hw6 st1 rfl
          refine ⟨hh.1, hh.2.1, hh.2.2.1, ?_⟩
          rcases hh.2.2.2 with ⟨h1, _⟩ | h1
          · exact Or.inl h1
          · exact Or.inr ⟨hck, h1⟩
        · have hh := process_nice3_effects bb st st.current_idx (dec c) hidxlen
            (hnice c hck) st1 rfl
          exact ⟨hh.1, hh.2.1, hh.2.2.2, Or.inl hh.2.2.1⟩
      have hlen2 : st2x.players.length = n := by
        show st1.players.length = n
        rw [hlen1, hlen]
      have hpl2 : ∀ i, st2x.pl i = st1.pl i := fun i => rfl
      have hidx2 : st2x.current_idx = (st.current_idx + 1) % n := by
        show (st1.current_idx + 1) % st.players.length = _
        rw [hci1, hlen]
      have hcur2 : st2x.current_idx < n := by
        rw [hidx2]
        exact mod_lt_len n _ hn0
      have hfr2 : ∀ i, i ≠ st.current_idx → st2x.pl i = st.pl i := by
        intro i hi
        rw [hpl2]
        exact hfr1 i hi
      have hE2 : ∀ i, actsPredB st2x i = true → eligibleB players1 i = true := by
        intro i hai
        by_cases hi : i = st.current_idx
        · subst hi
          exact hE _ hacts
        · apply hE i
          unfold actsPredB at hai ⊢
          rw [hfr2 i hi] at hai
          exact hai
      by_cases hc1 : all_acted st2x = true
      · exact ⟨st2x, c + 1, by rw [hstep, if_pos hc1], by omega⟩
      by_cases hc2 : st2x.last_raiser = none ∧ st2x.current_idx = start
      · exact ⟨st2x, c + 1, by rw [hstep, if_neg hc1, if_pos hc2], by omega⟩
      by_cases hc3 : count_active st2x.players ≤ 1
      · exact ⟨st2x, c + 1, by rw [hstep, if_neg hc1, if_neg hc2, if_pos hc3], by omega⟩
      have hex : ∃ i, i ∈ active_non_allin st2x ∧ i ∉ st2x.acted := by
        by_contra hno
        push_neg at hno
        apply hc1
        unfold all_acted
        apply List.all_eq_true.mpr
        intro i hi
        exact decide_eq_true (hno i hi)
      obtain ⟨i0, hi0mem, hi0na⟩ := hex
      unfold active_non_allin at hi0mem
      rw [List.mem_filter, List.mem_range] at hi0mem
      obtain ⟨hi0lt, hi0pred⟩ := hi0mem
      rw [hlen2] at hi0lt
      rw [Bool.and_eq_true] at hi0pred
      obtain ⟨hi0f, hi0c⟩ := hi0pred
      have hi0fold : (st2x.pl i0).folded = false := by
        cases hx : (st2x.pl i0).folded
        · rfl
        · rw [hx] at hi0f
          exact absurd hi0f (by simp)
      have hi0chips : 0 < (st2x.pl i0).chips := of_decide_eq_true hi0c
      have hP2 : ∃ i, i < n ∧ (st2x.pl i).folded = false ∧ 0 < (st2x.pl i).chips ∧
          i ∉ st2x.acted := ⟨i0, hi0lt, hi0fold, hi0chips, hi0na⟩
      rcases hdisj with hacins | ⟨hckeq, hreset⟩
      · -- no reset: the acted set grew by the current seat
        have hac2 : st2x.acted = st.acted.insert st.current_idx := hacins
        have hV2 : ∀ d, d + 1 < K → (st2x.current_idx + d) % n ∈ st2x.acted →
            actsPredB st2x ((st2x.current_idx + d) % n) = false := by
          intro d hdK hmem
          have hidxd : (st2x.current_idx + d) % n = (st.current_idx + (d + 1)) % n := by
            rw [hidx2]
            exact hw d
          have hne : (st.current_idx + (d + 1)) % n ≠ st.current_idx :=
            mod_ne_start n st.current_idx (d + 1) hcur (by omega) (by omega)
          rw [hidxd] at hmem ⊢
          rw [hac2, List.mem_insert_iff] at hmem
          rcases hmem with h | h
          · exact absurd h hne
          · unfold actsPredB
            rw [hfr2 _ hne]
            exact hV (d + 1) (by omega) h
        have hcov2 : ∀ i, i < n → (st2x.pl i).folded = false → 0 < (st2x.pl i).chips →
            i ∉ st2x.acted → ∃ d, d < K ∧ (st2x.current_idx + d) % n = i := by
          intro i hin hif hic hia
          have hne : i ≠ st.current_idx := by
            intro h
            apply hia
            rw [hac2, h]
            exact List.mem_insert_self _ _
          have hia1 : i ∉ st.acted := by
            intro h
            exact hia (by rw [hac2]; exact List.mem_insert_of_mem h)
          rw [hfr2 i hne] at hif hic
          obtain ⟨d, hdL, hdi⟩ := hcov i hin hif hic hia1
          have hd0 : d ≠ 0 := by
            intro h0
            subst h0
            rw [hs0] at hdi
            exact hne hdi.symm
          refine ⟨d - 1, by omega, ?_⟩
          have hidxd : (st2x.current_idx + (d - 1)) % n = (st.current_idx + ((d - 1) + 1)) % n := by
            rw [hidx2]
            exact hw (d - 1)
          rw [hidxd, show (d - 1) + 1 = d from by omega]
          exact hdi
        have hpfeq : ∀ i, i ≠ st.current_idx → predFresh st2x i = predFresh st i := by
          intro i hne
          have hmemiff : i ∈ st2x.acted ↔ i ∈ st.acted := by
            rw [hac2, List.mem_insert_iff]
            constructor
            · rintro (h | h)
              · exact absurd h hne
              · exact h
            · exact fun h => Or.inr h
          unfold predFresh actsPredB
          rw [hfr2 i hne, decide_eq_decide.mpr hmemiff]
        by_cases hck : c = k0
        · -- the wild decision is consumed here without a reset: the rest is nice
          obtain ⟨stf, m, hsome, hm⟩ := bound_loop bb dec start n hn0 fuel K (c + 1) st2x
            (by omega) (by omega) hlen2 hcur2 (fun k hk => hnice k (by omega)) hV2 hcov2 hP2
          refine ⟨stf, m, ?_, ?_⟩
          · rw [hstep, if_neg hc1, if_neg hc2, if_neg hc3]
            exact hsome
          · have hcongr : cnt K (fun d => predFresh st2x ((st2x.current_idx + d) % n))
                = cnt K (fun d => predFresh st ((st.current_idx + (d + 1)) % n)) := by
              apply cnt_congr
              intro d hd
              have hidxd : (st2x.current_idx + d) % n = (st.current_idx + (d + 1)) % n := by
                rw [hidx2]
                exact hw d
              rw [hidxd]
              exact hpfeq _ (mod_ne_start n st.current_idx (d + 1) hcur (by omega) (by omega))
            have hite : (if predFresh st ((st.current_idx + 0) % n) = true then 1 else 0) = 1 :=
              if_pos hhead1
            rw [hsplitF, hite]
            rw [hcongr] at hm
            omega
        · -- a nice decision: recurse within this lemma
          obtain ⟨stf, m, hsome, hm⟩ := ih K (c + 1) st2x (by omega) (by omega) (by omega)
            hlen2 hcur2 hE2 hV2 hcov2 hP2
          refine ⟨stf, m, ?_, ?_⟩
          · rw [hstep, if_neg hc1, if_neg hc2, if_neg hc3]
            exact hsome
          · have hcongr : cnt K (fun d => predFresh st2x ((st2x.current_idx + d) % n))
                = cnt K (fun d => predFresh st ((st.current_idx + (d + 1)) % n)) := by
              apply cnt_congr
              intro d hd
              have hidxd : (st2x.current_idx + d) % n = (st.current_idx + (d + 1)) % n := by
                rw [hidx2]
                exact hw d
              rw [hidxd]
              exact hpfeq _ (mod_ne_start n st.current_idx (d + 1) hcur (by omega) (by omega))
            have hite : (if predFresh st ((st.current_idx + 0) % n) = true then 1 else 0) = 1 :=
              if_pos hhead1
            rw [hsplitF, hite]
            rw [hcongr] at hm
            omega
      · -- reset: the acted set became the singleton of the current seat
        have hac2 : st2x.acted = [st.current_idx] := hreset
        have hV2 : ∀ d, d + 1 < n - 1 → (st2x.current_idx + d) % n ∈ st2x.acted →
            actsPredB st2x ((st2x.current_idx + d) % n) = false := by
          intro d hdK hmem
          have hidxd : (st2x.current_idx + d) % n = (st.current_idx + (d + 1)) % n := by
            rw [hidx2]
            exact hw d
          have hne : (st.current_idx + (d + 1)) % n ≠ st.current_idx :=
            mod_ne_start n st.current_idx (d + 1) hcur (by omega) (by omega)
          rw [hidxd] at hmem
          rw [hac2, List.mem_singleton] at hmem
          exact absurd hmem hne
        have hcov2 : ∀ i, i < n → (st2x.pl i).folded = false → 0 < (st2x.pl i).chips →
            i ∉ st2x.acted → ∃ d, d < n - 1 ∧ (st2x.current_idx + d) % n = i := by
          intro i hin hif hic hia
          have hne : i ≠ st.current_idx := by
            intro h
            apply hia
            rw [hac2, h]
            exact List.mem_singleton_self _
          obtain ⟨d, hdn, hdi⟩ := mod_surj n st2x.current_idx i hn0 hin
          have hdlast : d ≠ n - 1 := by
            intro hd
            subst hd
            have hlastv : (st2x.current_idx + (n - 1)) % n = st.current_idx := by
              rw [hidx2, hw (n - 1), show n - 1 + 1 = n from by omega,
                Nat.add_mod_right, Nat.mod_eq_of_lt hcur]
            rw [hlastv] at hdi
            exact hne hdi.symm
          exact ⟨d, by omega, hdi⟩
        obtain ⟨stf, m, hsome, hm⟩ := bound_loop bb dec start n hn0 fuel (n - 1) (c + 1) st2x
          (by omega) (by omega) hlen2 hcur2 (fun k hk => hnice k (by omega)) hV2 hcov2 hP2
        refine ⟨stf, m, ?_, ?_⟩
        · rw [hstep, if_neg hc1, if_neg hc2, if_neg hc3]
          exact hsome
        · -- budget: the reset window counts at most the eligible seats other
          -- than the current one, i.e. at most N - 1
          have hlastE : eligibleB players1 ((st2x.current_idx + (n - 1)) % n) = true := by
            have hlastv : (st2x.current_idx + (n - 1)) % n = st.current_idx := by
              rw [hidx2, hw (n - 1), show n - 1 + 1 = n from by omega,
                Nat.add_mod_right, Nat.mod_eq_of_lt hcur]
            rw [hlastv]
            exact hE _ hacts
          have hmono : cnt (n - 1) (fun d => predFresh st2x ((st2x.current_idx + d) % n))
              ≤ cnt (n - 1) (fun d => eligibleB players1 ((st2x.current_idx + d) % n)) := by
            apply cnt_mono
            intro d _ hpf
            unfold predFresh at hpf
            rw [Bool.and_eq_true] at hpf
            exact hE2 _ hpf.1
          have hlastsucc : cnt ((n - 1) + 1)
              (fun d => eligibleB players1 ((st2x.current_idx + d) % n))
              = cnt (n - 1) (fun d => eligibleB players1 ((st2x.current_idx + d) % n))
                + (if eligibleB players1 ((st2x.current_idx + (n - 1)) % n) = true
                    then 1 else 0) :=
            cnt_succ_last (n - 1) _
          have hrot : cnt n (fun d => eligibleB players1 ((st2x.current_idx + d) % n))
              = cnt n (fun i => eligibleB players1 i) :=
            cnt_rotate (fun i => eligibleB players1 i) n st2x.current_idx hn0
          rw [show (n - 1) + 1 = n from by omega] at hlastsucc
          rw [hrot] at hlastsucc
          have hiteE : (if eligibleB players1 ((st2x.current_idx + (n - 1)) % n) = true
              then 1 else 0) = 1 := if_pos hlastE
          rw [hiteE] at hlastsucc
          have hNbound : cnt (n - 1)
              (fun d => eligibleB players1 ((st2x.current_idx + d) % n)) = N - 1 := by
            omega
          omega

/-- C7 (amended).  Round length bound for `Game.betting_round` with `N`
round-start-eligible (non-folded, chip-holding) seats, `N ≥ 2`:
(a) if every decision the loop consumes is a CHECK or a CALL, the round
terminates after exactly `N` actions; (b) if at most one consumed
decision (the one at stream index `k0`, any genuine action) is something
other than CHECK/CALL/FOLD, the round terminates after at most `2N - 1`
actions.  Unlike the spec text, part (a) requires the absence of folds:
folding is also "no bet or raise", yet it can end the round early (see
the counterexample). -/
theorem c7_round_length_bound (bb : Int) (dec : Nat → Action) (preflop : Bool)
    (players : List Player) (pot curB : Int) (start fuel : Nat)
    (hstart : start < players.length)
    (hnn : ∀ i, 0 ≤ (players.getD i default).chips)
    (hN2 : 2 ≤ cnt players.length (fun i => eligibleB players i)) :
    ((∀ k, (dec k).action_type = ActionType.check ∨ (dec k).action_type = ActionType.call) →
      players.length ≤ fuel →
      ∃ stf, betting_round bb dec preflop players pot curB start fuel
        = some (stf, cnt players.length (fun i => eligibleB players i))) ∧
    (∀ k0, type6 (dec k0) → (∀ k, k ≠ k0 → nice3 (dec k)) →
      players.length + players.length ≤ fuel →
      ∃ stf m, betting_round bb dec preflop players pot curB start fuel = some (stf, m) ∧
        m ≤ 2 * cnt players.length (fun i => eligibleB players i) - 1) := by
  have hn0 : 0 < players.length := by
    rcases Nat.eq_zero_or_pos players.length with h | h
    · exfalso
      rw [h] at hN2
      have h0 : cnt 0 (fun i => eligibleB players i) = 0 := rfl
      omega
    · exact h
  let players1x : List Player :=
    if preflop then players else players.map (fun p => { p with current_bet := 0 })
  let curB1x : Int := if preflop then curB else 0
  let st0x : RoundSt := ⟨players1x, pot, curB1x, start, none, []⟩
  have hbr : betting_round bb dec preflop players pot curB start fuel
      = if (players1x.filter (fun p => !p.folded && decide (0 < p.chips))).length ≤ 1
        then some (st0x, 0) else betting_loop bb dec start fuel 0 st0x := by
    rw [betting_round]
  have hp1len : players1x.length = players.length := by
    show (if preflop then players
      else players.map (fun p => { p with current_bet := 0 })).length = players.length
    cases preflop
    · simp
    · simp
  have hp1E : ∀ i, eligibleB players1x i = eligibleB players i := by
    intro i
    show eligibleB (if preflop then players
      else players.map (fun p => { p with current_bet := 0 })) i = eligibleB players i
    cases preflop
    · simpa using eligibleB_map players i
    · simp
  have hp1chips : ∀ i, (players1x.getD i default).chips = (players.getD i default).chips := by
    intro i
    show ((if preflop then players
      else players.map (fun p => { p with current_bet := 0 })).getD i default).chips
      = (players.getD i default).chips
    cases preflop
    · simpa using chips_map players i
    · simp
  have hnn1 : ∀ i, 0 ≤ (players1x.getD i default).chips := by
    intro i
    rw [hp1chips i]
    exact hnn i
  have hEcnt : cnt players.length (fun i => eligibleB players1x i)
      = cnt players.length (fun i => eligibleB players i) :=
    cnt_congr _ _ _ (fun i _ => hp1E i)
  have hfl : (players1x.filter (fun p => !p.folded && decide (0 < p.chips))).length
      = cnt players.length (fun i => eligibleB players i) := by
    have h1 : (players1x.filter (fun p => !p.folded && decide (0 < p.chips))).length
        = cnt players1x.length (fun i => eligibleB players1x i) := by
      rw [← List.countP_eq_length_filter, countP_eq_cnt]
      rfl
    rw [h1, hp1len, hEcnt]
  have hguard : ¬((players1x.filter (fun p => !p.folded && decide (0 < p.chips))).length ≤ 1) := by
    rw [hfl]
    omega
  have hlen0 : st0x.players.length = players.length := hp1len
  have hidx0 : st0x.current_idx = (start + 0) % players.length := by
    show start = (start + 0) % players.length
    rw [Nat.add_zero, Nat.mod_eq_of_lt hstart]
  have hact0 : ∀ j : Nat, j ∈ st0x.acted ↔
      ∃ d, d < 0 ∧ (start + d) % players.length = j ∧ eligibleB players1x j = true := by
    intro j
    constructor
    · intro h
      exact absurd h (List.not_mem_nil j)
    · rintro ⟨d, hd, _⟩
      omega
  have hrot0 : cnt players.length (fun d => eligibleB players1x ((start + d) % players.length))
      = cnt players.length (fun i => eligibleB players1x i) :=
    cnt_rotate (fun i => eligibleB players1x i) players.length start hn0
  have hwin0 : cnt (players.length - 0)
      (fun d => eligibleB players1x ((start + (0 + d)) % players.length))
      = cnt players.length (fun i => eligibleB players i) := by
    have e1 : cnt players.length
        (fun d => eligibleB players1x ((start + (0 + d)) % players.length))
        = cnt players.length (fun d => eligibleB players1x ((start + d) % players.length)) :=
      cnt_congr _ _ _ (fun d _ => by rw [Nat.zero_add])
    have e0 : cnt (players.length - 0)
        (fun d => eligibleB players1x ((start + (0 + d)) % players.length))
        = cnt players.length
          (fun d => eligibleB players1x ((start + (0 + d)) % players.length)) := rfl
    rw [e0, e1, hrot0, hEcnt]
  constructor
  · -- part (a): all decisions CHECK or CALL, exactly N actions
    intro hdecA hfuelA
    obtain ⟨stf, hloop⟩ := exact_loop bb dec players1x start players.length
      (cnt players.length (fun i => eligibleB players i)) hn0 hstart hdecA hnn1
      (by rw [hEcnt]) hN2 fuel 0 0 st0x (by omega) (by omega) hlen0 hidx0 rfl hact0
      (fun i _ => rfl) (fun i => rfl) (by rw [hwin0]; omega) (by rw [hwin0]; omega)
    refine ⟨stf, ?_⟩
    rw [hbr, if_neg hguard]
    exact hloop
  · -- part (b): one wild decision at index k0, at most 2N - 1 actions
    intro k0 hwild hnice hfuelB
    have hE0 : ∀ i, actsPredB st0x i = true → eligibleB players1x i = true := by
      intro i h
      unfold actsPredB at h
      rw [Bool.and_eq_true] at h
      obtain ⟨hf, hc⟩ := h
      unfold eligibleB
      rw [Bool.and_eq_true]
      refine ⟨hf, ?_⟩
      cases hx : decide ((st0x.pl i).chips = 0)
      · have hne0 : ¬((players1x.getD i default).chips = 0) := of_decide_eq_false hx
        have hge := hnn1 i
        exact decide_eq_true (by omega)
      · rw [hx] at hc
        exact absurd hc (by simp)
    have hP0 : ∃ i, i < players.length ∧ (st0x.pl i).folded = false ∧
        0 < (st0x.pl i).chips ∧ i ∉ st0x.acted := by
      have hpos : 0 < cnt players.length (fun i => eligibleB players1x i) := by
        rw [hEcnt]
        omega
      obtain ⟨i, hi, hEi⟩ := cnt_exists _ _ hpos
      unfold eligibleB at hEi
      rw [Bool.and_eq_true] at hEi
      obtain ⟨hEf, hEc⟩ := hEi
      have hfold : (st0x.pl i).folded = false := by
        cases hx : (players1x.getD i default).folded
        · exact hx
        · rw [hx] at hEf
          exact absurd hEf (by simp)
      exact ⟨i, hi, hfold, of_decide_eq_true hEc, List.not_mem_nil i⟩
    obtain ⟨stf, m, hloop, hm⟩ := one_wild_loop bb dec start players.length
      (cnt players.length (fun i => eligibleB players i)) k0 players1x hn0
      (by rw [hEcnt]) hwild hnice fuel players.length 0 st0x (by omega) (by omega)
      (by omega) hlen0 hstart hE0
      (fun d _ hmem => absurd hmem (List.not_mem_nil _))
      (fun i hi _ _ _ => mod_surj players.length st0x.current_idx i hn0 hi) hP0
    refine ⟨stf, m, ?_, ?_⟩
    · rw [hbr, if_neg hguard]
      exact hloop
    · have hmono : cnt players.length
          (fun d => predFresh st0x ((st0x.current_idx + d) % players.length))
          ≤ cnt players.length
            (fun d => eligibleB players1x ((st0x.current_idx + d) % players.length)) := by
        apply cnt_mono
        intro d _ hpf
        unfold predFresh at hpf
        rw [Bool.and_eq_true] at hpf
        exact hE0 _ hpf.1
      have hrotB : cnt players.length
          (fun d => eligibleB players1x ((st0x.current_idx + d) % players.length))
          = cnt players.length (fun i => eligibleB players1x i) :=
        cnt_rotate (fun i => eligibleB players1x i) players.length st0x.current_idx hn0
      rw [hrotB, hEcnt] at hmono
      omega

/-- Counterexample to the spec sentence taken literally: an all-FOLD
decision stream contains no bet and no raise, the table has `N = 3`
eligible seats, yet the round ends after 2 actions (the at-most-one
non-folded-seat check fires), not after exactly `N = 3`. -/
theorem c7_fold_ends_round_early :
    (∀ k : Nat, nice3 ((fun _ : Nat => (⟨ActionType.fold, 0⟩ : Action)) k)) ∧
    cnt ([(⟨100, 0, false, []⟩ : Player), ⟨100, 0, false, []⟩, ⟨100, 0, false, []⟩] :
        List Player).length
      (fun i => eligibleB [⟨100, 0, false, []⟩, ⟨100, 0, false, []⟩, ⟨100, 0, false, []⟩] i)
      = 3 ∧
    (betting_round 10 (fun _ => ⟨ActionType.fold, 0⟩) true
        [⟨100, 0, false, []⟩, ⟨100, 0, false, []⟩, ⟨100, 0, false, []⟩] 0 0 0 10).map
      (fun r => r.2) = some 2 := by
  refine ⟨fun k => Or.inr (Or.inr rfl), by decide, by decide⟩

/-- Witness for C7 at a concrete table: two seats of 100 chips; the
all-check stream gives exactly 2 actions, and a stream whose only wild
decision is an opening raise stays within 2·2 - 1 = 3 actions. -/
theorem c7_round_length_bound_witness :
    (∃ stf, betting_round 10 (fun _ => ⟨ActionType.check, 0⟩) true
        [(⟨100, 0, false, []⟩ : Player), ⟨100, 0, false, []⟩] 0 0 0 10 = some (stf, 2)) ∧
    (∃ stf m, betting_round 10
        (fun k => if k = 0 then ⟨ActionType.raise, 50⟩ else (⟨ActionType.call, 0⟩ : Action)) true
        [(⟨100, 0, false, []⟩ : Player), ⟨100, 0, false, []⟩] 0 0 0 10 = some (stf, m) ∧
      m ≤ 3) := by
  have hnn : ∀ i, 0 ≤ (([(⟨100, 0, false, []⟩ : Player), ⟨100, 0, false, []⟩] :
      List Player).getD i default).chips := by
    intro i
    match i with
    | 0 => decide
    | 1 => decide
    | (k + 2) => exact le_refl 0
  constructor
  · exact (c7_round_length_bound 10 (fun _ => ⟨ActionType.check, 0⟩) true
      [⟨100, 0, false, []⟩, ⟨100, 0, false, []⟩] 0 0 0 10 (by decide) hnn (by decide)).1
      (fun k => Or.inl rfl) (by decide)
  · obtain ⟨stf, m, hsome, hm⟩ := (c7_round_length_bound 10
      (fun k => if k = 0 then ⟨ActionType.raise, 50⟩ else (⟨ActionType.call, 0⟩ : Action)) true
      [⟨100, 0, false, []⟩, ⟨100, 0, false, []⟩] 0 0 0 10 (by decide) hnn (by decide)).2
      0 (by constructor <;> decide)
      (fun k hk => by
        right
        left
        show (if k = 0 then (⟨ActionType.raise, 50⟩ : Action) else ⟨ActionType.call, 0⟩).action_type
          = ActionType.call
        rw [if_neg hk])
      (by decide)
    refine ⟨stf, m, hsome, ?_⟩
    have hc2 : cnt ([(⟨100, 0, false, []⟩ : Player), ⟨100, 0, false, []⟩] :
        List Player).length
        (fun i => eligibleB [⟨100, 0, false, []⟩, ⟨100, 0, false, []⟩] i) = 2 := by decide
    omega

end Poker
